import Mathlib

/-!
Verification development for the mohak.tui SSH portfolio server.

We give a shallow embedding, in Lean 4, of the parts of the Go code that the
specification talks about:

* the per-IP admission counter (`SessionCounter` in the server main),
* the ANSI-aware text layout utilities (`WrapText`, `TruncateText`, ...) of the
  `ui` package,
* the markdown renderer (`MarkdownRenderer.Render`, `renderTable`,
  `RenderStreaming`, ...),
* the static views (`ProjectDetail`, `ChatMessage`, `StreamingMessage`,
  `WelcomeMessage`) and the Bubble Tea `Model.Update` state machine of the
  `app` package.

Modelling conventions:

* A Go string is modelled as a `List Char` (`Str`).  Go indexes strings by
  byte; we index by rune.  The two agree on ASCII data, and every concrete
  input used below is ASCII.  `len` on strings is modelled by list length,
  `lipgloss.Width` by `visWidth` (printable runes, skipping `ESC ... m`
  escape sequences), matching the scanners the Go code itself uses.
* Go `int` is modelled by `Int` wherever the code can subtract, so that no
  `Nat` truncation diverges from Go semantics.
* A `lipgloss.Style` is modelled by the SGR parameter string it would emit:
  `render st s = ESC '[' params 'm' ++ s ++ ESC '[' '0' 'm'`.  `Bold`,
  `Italic` and `Underline` append the corresponding SGR parameter.  All the
  theme's styles carry at least a colour, so the unconditional wrap is
  faithful.
* Mutable builders become accumulating recursions; maps become association
  lists with distinct keys.
-/

set_option autoImplicit false

namespace MohakTui

/-- A Go string, as a list of runes. -/
abbrev Str := List Char

/-- ASCII approximation of Go `unicode.IsSpace` (all inputs considered here
are ASCII). -/
def goIsSpace (c : Char) : Bool :=
  c = ' ' || c = '\t' || c = '\n' || c = '\r' || c = '\x0b' || c = '\x0c'

/-- Go `strings.Split(s, sep)` for a one-rune separator. -/
def goSplitChar (sep : Char) : Str → List Str
  | [] => [[]]
  | c :: rest =>
    match goSplitChar sep rest with
    | [] => [[c]]
    | h :: t => if c = sep then [] :: h :: t else (c :: h) :: t

theorem length_dropWhile_le {α : Type} (p : α → Bool) (l : List α) :
    (l.dropWhile p).length ≤ l.length := by
  induction l with
  | nil => simp
  | cons c rest ih =>
    simp only [List.dropWhile]
    cases p c
    · simp
    · simp only [List.length_cons]; omega

/-- Go `strings.Fields`: split around runs of whitespace, no empty fields. -/
def goFields (s : Str) : List Str :=
  match s with
  | [] => []
  | c :: rest =>
    if goIsSpace c then goFields rest
    else (c :: rest.takeWhile (fun d => !goIsSpace d)) ::
      goFields (rest.dropWhile (fun d => !goIsSpace d))
termination_by s.length
decreasing_by
  · simp only [List.length_cons]; omega
  · simp only [List.length_cons]
    exact Nat.lt_succ_of_le (length_dropWhile_le _ _)

/-- Go `strings.HasPrefix`. -/
def goStartsWith (p s : Str) : Bool := p.isPrefixOf s

/-- Go `strings.HasSuffix`. -/
def goEndsWith (p s : Str) : Bool := p.isSuffixOf s

/-- Go `strings.TrimPrefix`. -/
def goTrimPfx (p s : Str) : Str := if goStartsWith p s then s.drop p.length else s

/-- Go `strings.TrimSuffix`. -/
def goTrimSfx (p s : Str) : Str :=
  if goEndsWith p s then s.take (s.length - p.length) else s

/-- Go `strings.TrimSpace`. -/
def goTrimSpace (s : Str) : Str :=
  ((s.dropWhile goIsSpace).reverse.dropWhile goIsSpace).reverse

/-- Go `strings.Trim(s, cutset)`. -/
def goTrimSet (cutset : Str) (s : Str) : Str :=
  ((s.dropWhile (cutset.contains ·)).reverse.dropWhile (cutset.contains ·)).reverse

/-- Go `strings.ReplaceAll(s, old, "")` for a one-rune `old`. -/
def goRemoveChar (c : Char) (s : Str) : Str := s.filter (· ≠ c)

/-- Go `strings.Repeat(s, n)` (Go panics for `n < 0`; every use below is
guarded non-negative by the surrounding code). -/
def goRepeat (s : Str) (n : Int) : Str := (List.replicate n.toNat s).flatten

/-- Go `strings.ToLower` (ASCII). -/
def goToLower (s : Str) : Str := s.map Char.toLower

/-- Go `strings.Contains(s, sub)` for a two-rune needle, which is the only
shape used (`"\x1b["`). -/
def goContainsSeq (a b : Char) : Str → Bool
  | [] => false
  | [_] => false
  | c :: d :: rest => (c = a && d = b) || goContainsSeq a b (d :: rest)

/-- Go `strings.Join` with separator `"\n"` restricted to what we need:
re-joining split lines. -/
def joinNl : List Str → Str
  | [] => []
  | [l] => l
  | l :: ls => l ++ '\n' :: joinNl ls

/-- The ANSI escape rune. -/
def escChar : Char := '\x1b'

/-- The SGR reset sequence `"\x1b[0m"`. -/
def resetSeq : Str := [escChar, '[', '0', 'm']

/-!
### Visible width

`lipgloss.Width` counts printable columns, skipping `ESC ... m` sequences.
We model it with the same scanner that the Go code (`wrapStyledLine`,
`TruncateText`) uses for styled text: `ESC` enters escape mode, `m` leaves it,
and everything scanned in escape mode has width zero.  `visScan` threads the
escape state so that widths compose over concatenation.
-/

/-- Width scanner: given the starting escape state, return the printable width
and the final escape state. -/
def visScan : Str → Bool → Nat × Bool
  | [], st => (0, st)
  | c :: rest, st =>
    if c = escChar then visScan rest true
    else if st then visScan rest (c ≠ 'm')
    else
      let r := visScan rest false
      (r.1 + 1, r.2)

/-- Printable width of a styled string (model of `lipgloss.Width`). -/
def visWidth (s : Str) : Nat := (visScan s false).1

/-!
### Admission controller: `SessionCounter` (server `main.go`)

The Go struct holds `counts map[string]int` and `maxPerIP int`.  We model the
map as an association list with pairwise distinct keys (an invariant of all
reachable states) and the Go `int` counts as `Int`.
-/

/-- Map read with Go's zero-value default. -/
def scLookup : List (Str × Int) → Str → Int
  | [], _ => 0
  | (k, v) :: rest, key => if k = key then v else scLookup rest key

/-- Map write (`m[k] = v`). -/
def scSet : List (Str × Int) → Str → Int → List (Str × Int)
  | [], k, v => [(k, v)]
  | (k', v') :: rest, k, v =>
    if k' = k then (k, v) :: rest else (k', v') :: scSet rest k v

/-- Map delete (`delete(m, k)`). -/
def scErase : List (Str × Int) → Str → List (Str × Int)
  | [], _ => []
  | (k', v') :: rest, k => if k' = k then rest else (k', v') :: scErase rest k

/-- The `ip :=` computation shared by `Acquire` and `Release`: strip
everything from the last `':'` on (the port), if the address has at least two
runes and contains a colon. -/
def ipFromAddr (addr : Str) : Str :=
  if 0 < (addr.length : Int) - 1 then
    match addr.reverse.findIdx? (· = ':') with
    | some j => addr.take (addr.length - 1 - j)
    | none => addr
  else addr

/-- `SessionCounter` from the server `main.go`. -/
structure SessionCounter where
  counts : List (Str × Int)
  maxPerIP : Int

/-- `NewSessionCounter`. -/
def newSessionCounter (maxPerIP : Int) : SessionCounter :=
  { counts := [], maxPerIP := maxPerIP }

/-- `SessionCounter.Acquire`: reject without side effects at or above the
per-IP cap, otherwise increment. -/
def SessionCounter.acquire (sc : SessionCounter) (addr : Str) :
    Bool × SessionCounter :=
  let ip := ipFromAddr addr
  if sc.maxPerIP ≤ scLookup sc.counts ip then (false, sc)
  else (true, { sc with counts := scSet sc.counts ip (scLookup sc.counts ip + 1) })

/-- `SessionCounter.Release`: decrement when positive, then delete the entry
if the stored count is zero. -/
def SessionCounter.release (sc : SessionCounter) (addr : Str) : SessionCounter :=
  let ip := ipFromAddr addr
  let m1 :=
    if 0 < scLookup sc.counts ip then
      scSet sc.counts ip (scLookup sc.counts ip - 1)
    else sc.counts
  let m2 := if scLookup m1 ip = 0 then scErase m1 ip else m1
  { sc with counts := m2 }

/-- One call against the registry. -/
inductive ScOp where
  | acq (addr : Str)
  | rel (addr : Str)

/-- Run a sequence of `Acquire`/`Release` calls from the empty registry. -/
def scStep (sc : SessionCounter) : ScOp → SessionCounter
  | .acq a => (sc.acquire a).2
  | .rel a => sc.release a

/-- State after a call sequence. -/
def scRun (maxPerIP : Int) (ops : List ScOp) : SessionCounter :=
  ops.foldl scStep (newSessionCounter maxPerIP)

/-- Keys of the modelled map. -/
def scKeys (m : List (Str × Int)) : List Str := m.map Prod.fst

theorem scSet_mem {m : List (Str × Int)} {k : Str} {v : Int} {p : Str × Int}
    (h : p ∈ scSet m k v) : p = (k, v) ∨ p ∈ m := by
  induction m with
  | nil => simpa [scSet] using h
  | cons q rest ih =>
    obtain ⟨k', v'⟩ := q
    simp only [scSet] at h
    by_cases hk : k' = k
    · simp [hk] at h
      rcases h with h | h
      · exact Or.inl (by simp [h])
      · exact Or.inr (List.mem_cons_of_mem _ h)
    · simp [hk] at h
      rcases h with h | h
      · exact Or.inr (by simp [h])
      · rcases ih h with h' | h'
        · exact Or.inl h'
        · exact Or.inr (List.mem_cons_of_mem _ h')

theorem scKeys_cons (p : Str × Int) (m : List (Str × Int)) :
    scKeys (p :: m) = p.1 :: scKeys m := rfl

theorem scKeys_scSet {m : List (Str × Int)} {k : Str} {v : Int} {a : Str}
    (h : a ∈ scKeys (scSet m k v)) : a ∈ scKeys m ∨ a = k := by
  induction m with
  | nil =>
    simp only [scSet, scKeys, List.map_cons, List.map_nil, List.mem_singleton] at h
    exact Or.inr h
  | cons q rest ih =>
    obtain ⟨k', v'⟩ := q
    simp only [scSet] at h
    by_cases hk : k' = k
    · simp only [if_pos hk, scKeys_cons, List.mem_cons] at h
      rcases h with h | h
      · exact Or.inr h
      · exact Or.inl (by simp only [scKeys_cons, List.mem_cons]; exact Or.inr h)
    · simp only [if_neg hk, scKeys_cons, List.mem_cons] at h
      rcases h with h | h
      · exact Or.inl (by simp only [scKeys_cons, List.mem_cons]; exact Or.inl h)
      · rcases ih h with h' | h'
        · exact Or.inl (by simp only [scKeys_cons, List.mem_cons]; exact Or.inr h')
        · exact Or.inr h'

theorem scSet_nodup {m : List (Str × Int)} {k : Str} {v : Int}
    (h : (scKeys m).Nodup) : (scKeys (scSet m k v)).Nodup := by
  induction m with
  | nil => simp [scSet, scKeys]
  | cons q rest ih =>
    obtain ⟨k', v'⟩ := q
    simp only [scKeys, List.map_cons, List.nodup_cons] at h
    obtain ⟨hk', hrest⟩ := h
    simp only [scSet]
    by_cases hk : k' = k
    · subst hk
      rw [if_pos rfl]
      simp only [scKeys_cons, List.nodup_cons]
      exact ⟨hk', hrest⟩
    · simp only [if_neg hk]
      simp only [scKeys, List.map_cons, List.nodup_cons]
      refine ⟨fun hmem => ?_, ih hrest⟩
      rcases scKeys_scSet hmem with h' | h'
      · exact hk' h'
      · exact hk h'

theorem scErase_subset {m : List (Str × Int)} {k : Str} {p : Str × Int}
    (h : p ∈ scErase m k) : p ∈ m := by
  induction m with
  | nil => simp [scErase] at h
  | cons q rest ih =>
    obtain ⟨k', v'⟩ := q
    simp only [scErase] at h
    by_cases hk : k' = k
    · simp [hk] at h
      exact List.mem_cons_of_mem _ h
    · simp [hk] at h
      rcases h with h | h
      · simp [h]
      · exact List.mem_cons_of_mem _ (ih h)

theorem scErase_nodup {m : List (Str × Int)} {k : Str}
    (h : (scKeys m).Nodup) : (scKeys (scErase m k)).Nodup := by
  induction m with
  | nil => simpa [scErase] using h
  | cons q rest ih =>
    obtain ⟨k', v'⟩ := q
    simp only [scKeys, List.map_cons, List.nodup_cons] at h
    obtain ⟨hk', hrest⟩ := h
    simp only [scErase]
    by_cases hk : k' = k
    · simpa [hk] using hrest
    · simp only [if_neg hk, scKeys, List.map_cons, List.nodup_cons]
      refine ⟨fun hmem => ?_, ih hrest⟩
      have hmem' : k' ∈ scKeys rest := by
        simp only [scKeys, List.mem_map] at hmem ⊢
        obtain ⟨p, hp, hpe⟩ := hmem
        exact ⟨p, scErase_subset hp, hpe⟩
      exact hk' hmem'

theorem scErase_not_mem {m : List (Str × Int)} {k : Str}
    (h : (scKeys m).Nodup) (v : Int) : (k, v) ∉ scErase m k := by
  induction m with
  | nil => simp [scErase]
  | cons q rest ih =>
    obtain ⟨k', v'⟩ := q
    simp only [scKeys, List.map_cons, List.nodup_cons] at h
    obtain ⟨hk', hrest⟩ := h
    simp only [scErase]
    by_cases hk : k' = k
    · subst hk
      simp only [if_pos rfl]
      intro hmem
      exact hk' (by simpa [scKeys] using List.mem_map_of_mem Prod.fst hmem)
    · simp only [if_neg hk, List.mem_cons]
      rintro (hd | hmem)
      · exact hk (by simpa using congrArg Prod.fst hd.symm)
      · exact ih hrest hmem

theorem scLookup_mem {m : List (Str × Int)} {key : Str}
    (h : scLookup m key ≠ 0) : (key, scLookup m key) ∈ m := by
  induction m with
  | nil => simp [scLookup] at h
  | cons q rest ih =>
    obtain ⟨k', v'⟩ := q
    simp only [scLookup] at h ⊢
    by_cases hk : k' = key
    · simp [hk]
    · simp only [if_neg hk] at h ⊢
      exact List.mem_cons_of_mem _ (ih h)

theorem scLookup_nonneg {m : List (Str × Int)} {key : Str}
    (h : ∀ p ∈ m, 0 < p.2) : 0 ≤ scLookup m key := by
  by_cases h0 : scLookup m key = 0
  · omega
  · exact le_of_lt (h _ (scLookup_mem h0))

theorem scLookup_scSet_self (m : List (Str × Int)) (k : Str) (v : Int) :
    scLookup (scSet m k v) k = v := by
  induction m with
  | nil => simp [scSet, scLookup]
  | cons q rest ih =>
    obtain ⟨k', v'⟩ := q
    simp only [scSet]
    by_cases hk : k' = k
    · simp [hk, scLookup]
    · simp [hk, scLookup, ih]

/-- Invariant of all reachable registry states: keys are distinct and every
stored count lies in `(0, maxPerIP]`. -/
def ScInv (sc : SessionCounter) : Prop :=
  (scKeys sc.counts).Nodup ∧ ∀ p ∈ sc.counts, 0 < p.2 ∧ p.2 ≤ sc.maxPerIP

theorem scInv_acquire {sc : SessionCounter} (addr : Str) (h : ScInv sc) :
    ScInv (sc.acquire addr).2 := by
  obtain ⟨hnd, hbd⟩ := h
  unfold SessionCounter.acquire
  by_cases hrej : sc.maxPerIP ≤ scLookup sc.counts (ipFromAddr addr)
  · simpa [hrej] using ⟨hnd, hbd⟩
  · simp only [if_neg hrej]
    refine ⟨scSet_nodup hnd, ?_⟩
    intro p hp
    rcases scSet_mem hp with hp' | hp'
    · subst hp'
      have hnn : 0 ≤ scLookup sc.counts (ipFromAddr addr) :=
        scLookup_nonneg (fun q hq => (hbd q hq).1)
      constructor
      · simpa using by omega
      · simp only
        omega
    · exact hbd p hp'

theorem scInv_release {sc : SessionCounter} (addr : Str) (h : ScInv sc) :
    ScInv (sc.release addr) := by
  obtain ⟨hnd, hbd⟩ := h
  unfold SessionCounter.release
  set ip := ipFromAddr addr with hip
  by_cases hpos : 0 < scLookup sc.counts ip
  · have hmem : (ip, scLookup sc.counts ip) ∈ sc.counts :=
      scLookup_mem (by omega)
    have hle : scLookup sc.counts ip ≤ sc.maxPerIP := (hbd _ hmem).2
    simp only [if_pos hpos]
    have hnd1 : (scKeys (scSet sc.counts ip (scLookup sc.counts ip - 1))).Nodup :=
      scSet_nodup hnd
    by_cases hz : scLookup (scSet sc.counts ip (scLookup sc.counts ip - 1)) ip = 0
    · simp only [if_pos hz]
      refine ⟨scErase_nodup hnd1, ?_⟩
      intro p hp
      have hpm := scErase_subset hp
      rcases scSet_mem hpm with hp' | hp'
      · exfalso
        subst hp'
        exact scErase_not_mem hnd1 _ hp
      · exact hbd p hp'
    · simp only [if_neg hz]
      refine ⟨hnd1, ?_⟩
      intro p hp
      rcases scSet_mem hp with hp' | hp'
      · subst hp'
        have := scLookup_scSet_self sc.counts ip (scLookup sc.counts ip - 1)
        constructor
        · simp only
          omega
        · simp only
          omega
      · exact hbd p hp'
  · simp only [if_neg hpos]
    by_cases hz : scLookup sc.counts ip = 0
    · simp only [if_pos hz]
      refine ⟨scErase_nodup hnd, fun p hp => hbd p (scErase_subset hp)⟩
    · simp only [if_neg hz]
      exact ⟨hnd, hbd⟩

theorem scStep_maxPerIP (sc : SessionCounter) (op : ScOp) :
    (scStep sc op).maxPerIP = sc.maxPerIP := by
  cases op with
  | acq a =>
    simp only [scStep, SessionCounter.acquire]
    by_cases h : sc.maxPerIP ≤ scLookup sc.counts (ipFromAddr a) <;> simp [h]
  | rel a =>
    simp [scStep, SessionCounter.release]

theorem scInv_run (maxPerIP : Int) (ops : List ScOp) :
    ScInv (scRun maxPerIP ops) ∧ (scRun maxPerIP ops).maxPerIP = maxPerIP := by
  suffices h : ∀ sc : SessionCounter, ScInv sc →
      ScInv (ops.foldl scStep sc) ∧ (ops.foldl scStep sc).maxPerIP = sc.maxPerIP by
    refine h (newSessionCounter maxPerIP) ⟨by simp [newSessionCounter, scKeys], ?_⟩
    intro p hp
    simp [newSessionCounter] at hp
  induction ops with
  | nil => exact fun sc h => ⟨h, rfl⟩
  | cons op rest ih =>
    intro sc h
    have hstep : ScInv (scStep sc op) := by
      cases op with
      | acq a => exact scInv_acquire a h
      | rel a => exact scInv_release a h
    obtain ⟨h1, h2⟩ := ih (scStep sc op) hstep
    exact ⟨h1, h2.trans (scStep_maxPerIP sc op)⟩

/-- C3: for every address and every sequence of `Acquire`/`Release` calls on
the admission registry, the stored per-address count stays in `(0, maxPerIP]`
(so it never exceeds `MAX_PER_ADDRESS` and never goes below 0); an `Acquire`
for an address already holding `maxPerIP` slots returns `false` and leaves the
registry unchanged; and `Release` removes the address entry entirely when the
count reaches zero. -/
theorem sessionCounter_admission_control (maxPerIP : Int) (ops : List ScOp) :
    (∀ k v, (k, v) ∈ (scRun maxPerIP ops).counts → 0 < v ∧ v ≤ maxPerIP) ∧
    (∀ addr, maxPerIP ≤ scLookup (scRun maxPerIP ops).counts (ipFromAddr addr) →
      (scRun maxPerIP ops).acquire addr = (false, scRun maxPerIP ops)) ∧
    (∀ addr, scLookup (scRun maxPerIP ops).counts (ipFromAddr addr) = 1 →
      ∀ v, (ipFromAddr addr, v) ∉ ((scRun maxPerIP ops).release addr).counts) := by
  obtain ⟨⟨hnd, hbd⟩, hmax⟩ := scInv_run maxPerIP ops
  refine ⟨?_, ?_, ?_⟩
  · intro k v hkv
    have := hbd (k, v) hkv
    rw [hmax] at this
    exact this
  · intro addr hfull
    have h2 : (scRun maxPerIP ops).maxPerIP ≤
        scLookup (scRun maxPerIP ops).counts (ipFromAddr addr) := by
      rw [hmax]; exact hfull
    simp [SessionCounter.acquire, if_pos h2]
  · intro addr hone v
    have hpos : 0 < scLookup (scRun maxPerIP ops).counts (ipFromAddr addr) := by
      rw [hone]; norm_num
    have hz : scLookup (scSet (scRun maxPerIP ops).counts (ipFromAddr addr)
        (scLookup (scRun maxPerIP ops).counts (ipFromAddr addr) - 1))
        (ipFromAddr addr) = 0 := by
      rw [scLookup_scSet_self, hone]; norm_num
    have key : ((scRun maxPerIP ops).release addr).counts
        = scErase (scSet (scRun maxPerIP ops).counts (ipFromAddr addr)
            (scLookup (scRun maxPerIP ops).counts (ipFromAddr addr) - 1))
          (ipFromAddr addr) := by
      simp only [SessionCounter.release, if_pos hpos, if_pos hz]
    rw [key]
    exact scErase_not_mem (scSet_nodup hnd) v

/-- Concrete instantiation of `sessionCounter_admission_control`: five
acquisitions from one address fill the default quota of 5, the sixth is
rejected without changing the registry, and releasing from a count of 1
removes the entry. -/
theorem sessionCounter_admission_control_witness :
    ((scRun 5 (List.replicate 5 (ScOp.acq ("1.2.3.4:50000").data))).acquire
        ("1.2.3.4:50001").data =
      (false, scRun 5 (List.replicate 5 (ScOp.acq ("1.2.3.4:50000").data)))) ∧
    (∀ v, (ipFromAddr ("1.2.3.4:50000").data, v) ∉
      ((scRun 5 [ScOp.acq ("1.2.3.4:50000").data]).release
        ("1.2.3.4:50000").data).counts) := by
  constructor
  · exact (sessionCounter_admission_control 5
      (List.replicate 5 (ScOp.acq ("1.2.3.4:50000").data))).2.1
      ("1.2.3.4:50001").data (by decide)
  · exact (sessionCounter_admission_control 5
      [ScOp.acq ("1.2.3.4:50000").data]).2.2 ("1.2.3.4:50000").data (by decide)

/-!
### Text layout utilities (`ui/text.go`)

`WrapText` splits on newlines, skips blank lines, and wraps each remaining
line; a line that fits is returned unchanged, a too-long line is wrapped at
word boundaries (`wrapPlainLine`) or, when it carries ANSI sequences,
rune-by-rune (`wrapStyledLine`).
-/

/-- The hard-split loop of `wrapPlainLine` for a word longer than `maxWidth`:
chunks of `maxWidth-1` runes, a `-` after every non-final chunk.  The Go
loop advances `j` by `maxWidth-1` and therefore does not terminate when
`maxWidth ≤ 1`; that case is unreachable from `WrapText` (which forces
`maxWidth ≥ 1`) together with a word of length `> maxWidth = 1` never being
wrapped below, and the model returns `[]` there. -/
def hardChunks (step : Nat) : Str → Str
  | [] => []
  | word =>
    if step = 0 then []
    else if word.length ≤ step then word
    else word.take step ++ '-' :: '\n' :: hardChunks step (word.drop step)
termination_by word => word.length
decreasing_by
  rename_i hstep hlen
  simp only [List.length_drop]
  omega

/-- The word loop of `wrapPlainLine`.  `cur` is Go's `currentLineLen`,
`first` tells whether this is the word at index 0 (Go guards the extra space
with `i > 0 && currentLineLen > 0`; `first` captures the `i > 0` part). -/
def wrapWordsGo (w : Int) : List Str → Int → Bool → Str
  | [], _, _ => []
  | word :: rest, cur, first =>
    let wl : Int := word.length
    if w < wl then
      (if 0 < cur then ['\n'] else []) ++ hardChunks (w - 1).toNat word ++
        wrapWordsGo w rest (wl % (w - 1)) false
    else
      let spaceNeeded : Int := wl + (if !first && decide (0 < cur) then 1 else 0)
      if w < cur + spaceNeeded then
        '\n' :: (word ++ wrapWordsGo w rest wl false)
      else
        (if 0 < cur then [' '] else []) ++ word ++
          wrapWordsGo w rest (cur + spaceNeeded) false

/-- `wrapPlainLine`: word wrapping of a plain line. -/
def wrapPlainLine (line : Str) (maxWidth : Int) : Str :=
  match goFields line with
  | [] => []
  | words => wrapWordsGo maxWidth words 0 true

/-- The rune loop of `wrapStyledLine`.  State: `inEsc` = Go's `inEscape`,
`seqAcc` = `escapeSeq`, `act` = `activeStyles`, `curW` = `currentLineWidth`.
Go additionally tracks `lastBreakPoint`, but both arms of the wrap branch
emit the same bytes, so it does not influence the output. -/
def wrapStyledGo (w : Int) : Str → Bool → Str → List Str → Int → Str
  | [], _, _, _, _ => []
  | c :: rest, inEsc, seqAcc, act, curW =>
    if c = escChar then wrapStyledGo w rest true [escChar] act curW
    else if inEsc then
      let seq := seqAcc ++ [c]
      if c = 'm' then
        let act' := if seq = resetSeq then [] else act ++ [seq]
        seq ++ wrapStyledGo w rest false seq act' curW
      else wrapStyledGo w rest true seq act curW
    else if w ≤ curW then
      '\n' :: (act.flatten ++ c :: wrapStyledGo w rest false seqAcc act 1)
    else
      c :: wrapStyledGo w rest false seqAcc act (curW + 1)

/-- `wrapStyledLine`: rune wrapping of an ANSI-styled line, re-applying the
active styles after each inserted newline. -/
def wrapStyledLine (line : Str) (maxWidth : Int) : Str :=
  wrapStyledGo maxWidth line false [] [] 0

/-- `wrapLine`: dispatch on visible width and the presence of `"\x1b["`. -/
def wrapLine (line : Str) (maxWidth : Int) : Str :=
  if (visWidth line : Int) ≤ maxWidth then line
  else if goContainsSeq escChar '[' line then wrapStyledLine line maxWidth
  else wrapPlainLine line maxWidth

/-- `WrapText`: wrap every line; blank lines contribute nothing (but keep
their separators). -/
def wrapTextGo (text : Str) (maxWidth : Int) : Str :=
  let w := if maxWidth ≤ 0 then 80 else maxWidth
  joinNl ((goSplitChar '\n' text).map
    (fun l => if goTrimSpace l = [] then [] else wrapLine l w))

/-- The rune loop of the styled branch of `TruncateText`: copy escape
sequences through, count visible runes, and at `maxWidth-3` emit `"..."`
plus an SGR reset and stop. -/
def truncStyledGo (w : Int) : Str → Bool → Int → Str
  | [], _, _ => []
  | c :: rest, inEsc, cnt =>
    if c = escChar then c :: truncStyledGo w rest true cnt
    else if inEsc then c :: truncStyledGo w rest (c ≠ 'm') cnt
    else if w - 3 ≤ cnt then '.' :: '.' :: '.' :: resetSeq
    else c :: truncStyledGo w rest false (cnt + 1)

/-- `TruncateText`: ellipsis-only for `maxWidth ≤ 3`, otherwise truncate on a
visible-rune boundary (byte slicing in Go; rune slicing here, identical on
ASCII). -/
def truncateText (text : Str) (maxWidth : Int) : Str :=
  if maxWidth ≤ 3 then ['.', '.', '.']
  else if (visWidth text : Int) ≤ maxWidth then text
  else if !goContainsSeq escChar '[' text then
    if maxWidth - 3 < (text.length : Int) then
      text.take (maxWidth - 3).toNat ++ ['.', '.', '.']
    else text
  else truncStyledGo maxWidth text false 0

/-!
### "No escape sequence is split across lines"

`nsScan s st = (ok, st')` scans `s` from escape-state `st`; `ok` is false
exactly when a newline occurs inside an `ESC ... m` sequence, and `st'` is
the state after `s`.
-/

/-- Escape-aware newline scanner. -/
def nsScan : Str → Bool → Bool × Bool
  | [], st => (true, st)
  | c :: rest, st =>
    if c = escChar then nsScan rest true
    else if st then
      let r := nsScan rest (c ≠ 'm')
      (decide (c ≠ '\n') && r.1, r.2)
    else nsScan rest false

/-- No newline occurs inside an escape sequence of `s`. -/
def noSplitEsc (s : Str) : Bool := (nsScan s false).1

/-!
### Lemmas about the string utilities
-/

theorem visScan_append (a b : Str) (st : Bool) :
    visScan (a ++ b) st =
      ((visScan a st).1 + (visScan b (visScan a st).2).1,
        (visScan b (visScan a st).2).2) := by
  induction a generalizing st with
  | nil => simp [visScan]
  | cons c rest ih =>
    simp only [List.cons_append, visScan]
    by_cases hc : c = escChar
    · simp [hc, ih]
    · by_cases hst : st
      · simp [hc, hst, ih]
      · simp only [if_neg hc, hst, if_false, Bool.false_eq_true, List.append_eq]
        rw [ih]
        simp only [Prod.mk.injEq]
        exact ⟨by omega, trivial⟩

theorem visScan_le_length (s : Str) (st : Bool) : (visScan s st).1 ≤ s.length := by
  induction s generalizing st with
  | nil => simp [visScan]
  | cons c rest ih =>
    simp only [visScan, List.length_cons]
    by_cases hc : c = escChar
    · simp only [if_pos hc]
      exact le_trans (ih true) (Nat.le_succ _)
    · by_cases hst : st
      · simp only [if_neg hc, hst, if_true]
        exact le_trans (ih _) (Nat.le_succ _)
      · simp only [if_neg hc, hst, Bool.false_eq_true, if_false]
        exact Nat.succ_le_succ (ih false)

theorem visScan_no_esc {s : Str} (h : escChar ∉ s) :
    visScan s false = (s.length, false) := by
  induction s with
  | nil => simp [visScan]
  | cons c rest ih =>
    have hc : c ≠ escChar := fun hc => h (hc ▸ List.mem_cons_self c rest)
    have hrest : escChar ∉ rest := fun hr => h (List.mem_cons_of_mem c hr)
    simp [visScan, hc, ih hrest]

theorem visWidth_le_length (s : Str) : visWidth s ≤ s.length :=
  visScan_le_length s false

theorem visWidth_no_esc {s : Str} (h : escChar ∉ s) : visWidth s = s.length := by
  simp [visWidth, visScan_no_esc h]

theorem goContainsSeq_eq_false {a b : Char} {s : Str} (h : a ∉ s) :
    goContainsSeq a b s = false := by
  induction s with
  | nil => simp [goContainsSeq]
  | cons c rest ih =>
    cases rest with
    | nil => simp [goContainsSeq]
    | cons d rest' =>
      have hc : c ≠ a := fun hc => h (hc ▸ List.mem_cons_self c _)
      have htl : a ∉ d :: rest' := fun hr => h (List.mem_cons_of_mem c hr)
      simp only [goContainsSeq]
      rw [ih htl]
      simp [fun hca => hc hca]

theorem goSplitChar_ne_nil (sep : Char) (s : Str) : goSplitChar sep s ≠ [] := by
  induction s with
  | nil => simp [goSplitChar]
  | cons c rest ih =>
    simp only [goSplitChar]
    cases hres : goSplitChar sep rest with
    | nil => simp
    | cons h t =>
      by_cases hc : c = sep <;> simp [hc]

theorem goSplitChar_cons_sep (sep : Char) (s : Str) :
    goSplitChar sep (sep :: s) = [] :: goSplitChar sep s := by
  simp only [goSplitChar]
  cases hres : goSplitChar sep s with
  | nil => exact absurd hres (goSplitChar_ne_nil sep s)
  | cons h t => simp

theorem goSplitChar_cons_ne {sep c : Char} (hc : c ≠ sep) (s : Str) {h : Str}
    {t : List Str} (hs : goSplitChar sep s = h :: t) :
    goSplitChar sep (c :: s) = (c :: h) :: t := by
  simp only [goSplitChar, hs]
  simp [hc]

theorem goSplitChar_append_sep (sep : Char) (a b : Str) :
    goSplitChar sep (a ++ sep :: b) = goSplitChar sep a ++ goSplitChar sep b := by
  induction a with
  | nil =>
    show goSplitChar sep (sep :: b) = goSplitChar sep [] ++ goSplitChar sep b
    rw [goSplitChar_cons_sep]
    rfl
  | cons c a' ih =>
    cases hsa : goSplitChar sep a' with
    | nil => exact absurd hsa (goSplitChar_ne_nil sep a')
    | cons h t =>
      by_cases hc : c = sep
      · subst hc
        rw [List.cons_append, goSplitChar_cons_sep, goSplitChar_cons_sep, ih]
        simp
      · have hsab : goSplitChar sep (a' ++ sep :: b) =
            h :: (t ++ goSplitChar sep b) := by
          rw [ih, hsa]; simp
        rw [List.cons_append, goSplitChar_cons_ne hc _ hsab,
          goSplitChar_cons_ne hc _ hsa]
        simp

theorem goSplitChar_not_mem (sep : Char) (s : Str) :
    ∀ l ∈ goSplitChar sep s, sep ∉ l := by
  induction s with
  | nil =>
    intro l hl
    simp [goSplitChar] at hl
    simp [hl]
  | cons c rest ih =>
    cases hres : goSplitChar sep rest with
    | nil => exact absurd hres (goSplitChar_ne_nil sep rest)
    | cons h t =>
      intro l hl
      by_cases hc : c = sep
      · subst hc
        rw [goSplitChar_cons_sep, hres] at hl
        simp only [List.mem_cons] at hl
        rcases hl with hl | hl | hl
        · simp [hl]
        · exact ih l (by simp [hres, hl])
        · exact ih l (by simp [hres, hl])
      · rw [goSplitChar_cons_ne hc _ hres] at hl
        simp only [List.mem_cons] at hl
        rcases hl with hl | hl
        · subst hl
          intro hmem
          simp only [List.mem_cons] at hmem
          rcases hmem with hmem | hmem
          · exact hc hmem.symm
          · exact ih h (by simp [hres]) hmem
        · exact ih l (by simp [hres, hl])

theorem goSplitChar_chars (sep : Char) (s : Str) :
    ∀ l ∈ goSplitChar sep s, ∀ c ∈ l, c ∈ s := by
  induction s with
  | nil =>
    intro l hl c hc
    simp [goSplitChar] at hl
    subst hl
    simp at hc
  | cons a rest ih =>
    cases hres : goSplitChar sep rest with
    | nil => exact absurd hres (goSplitChar_ne_nil sep rest)
    | cons h t =>
      intro l hl c hc
      by_cases ha : a = sep
      · subst ha
        rw [goSplitChar_cons_sep, hres] at hl
        simp only [List.mem_cons] at hl
        rcases hl with hl | hl | hl
        · subst hl; simp at hc
        · exact List.mem_cons_of_mem _ (ih l (by simp [hres, hl]) c hc)
        · exact List.mem_cons_of_mem _ (ih l (by simp [hres, hl]) c hc)
      · rw [goSplitChar_cons_ne ha _ hres] at hl
        simp only [List.mem_cons] at hl
        rcases hl with hl | hl
        · subst hl
          simp only [List.mem_cons] at hc
          rcases hc with hc | hc
          · simp [hc]
          · exact List.mem_cons_of_mem _ (ih h (by simp [hres]) c hc)
        · exact List.mem_cons_of_mem _ (ih l (by simp [hres, hl]) c hc)

theorem goSplitChar_single {sep : Char} {s : Str} (h : sep ∉ s) :
    goSplitChar sep s = [s] := by
  induction s with
  | nil => simp [goSplitChar]
  | cons c rest ih =>
    have hc : c ≠ sep := fun hc => h (hc ▸ List.mem_cons_self c rest)
    have hrest : sep ∉ rest := fun hr => h (List.mem_cons_of_mem c hr)
    exact goSplitChar_cons_ne hc _ (ih hrest)

theorem joinNl_goSplitChar (s : Str) : joinNl (goSplitChar '\n' s) = s := by
  induction s with
  | nil => simp [goSplitChar, joinNl]
  | cons c rest ih =>
    cases hres : goSplitChar '\n' rest with
    | nil => exact absurd hres (goSplitChar_ne_nil _ rest)
    | cons h t =>
      by_cases hc : c = '\n'
      · subst hc
        rw [goSplitChar_cons_sep, hres, ← hres]
        cases t with
        | nil =>
          rw [hres] at ih ⊢
          simpa [joinNl] using congrArg (fun x => '\n' :: x) ih
        | cons t1 t2 =>
          rw [hres] at ih ⊢
          simpa [joinNl] using congrArg (fun x => '\n' :: x) ih
      · rw [goSplitChar_cons_ne hc _ hres]
        rw [hres] at ih
        cases t with
        | nil => simpa [joinNl] using congrArg (fun x => c :: x) ih
        | cons t1 t2 => simpa [joinNl] using congrArg (fun x => c :: x) ih

theorem goSplitNl_joinNl (xs : List Str) (hne : xs ≠ []) :
    goSplitChar '\n' (joinNl xs) = (xs.map (goSplitChar '\n')).flatten := by
  induction xs with
  | nil => exact absurd rfl hne
  | cons x xs ih =>
    cases xs with
    | nil => simp [joinNl]
    | cons y ys =>
      have : joinNl (x :: y :: ys) = x ++ '\n' :: joinNl (y :: ys) := rfl
      rw [this, goSplitChar_append_sep, ih (by simp)]
      simp

theorem takeWhile_append_all {p : Char → Bool} {l₁ : Str} (l₂ : Str)
    (h : l₁.dropWhile p = []) : (l₁ ++ l₂).takeWhile p = l₁ ++ l₂.takeWhile p := by
  induction l₁ with
  | nil => simp
  | cons c rest ih =>
    cases hpc : p c
    · simp [List.dropWhile_cons, hpc] at h
    · simp only [List.dropWhile_cons, hpc] at h
      simp only [if_true] at h
      simp [List.cons_append, List.takeWhile_cons, hpc, ih h]

theorem dropWhile_append_all {p : Char → Bool} {l₁ : Str} (l₂ : Str)
    (h : l₁.dropWhile p = []) : (l₁ ++ l₂).dropWhile p = l₂.dropWhile p := by
  induction l₁ with
  | nil => simp
  | cons c rest ih =>
    cases hpc : p c
    · simp [List.dropWhile_cons, hpc] at h
    · simp only [List.dropWhile_cons, hpc] at h
      simp only [if_true] at h
      simp [List.cons_append, List.dropWhile_cons, hpc, ih h]

theorem takeWhile_append_ne {p : Char → Bool} {l₁ : Str} (l₂ : Str)
    (h : l₁.dropWhile p ≠ []) : (l₁ ++ l₂).takeWhile p = l₁.takeWhile p := by
  induction l₁ with
  | nil => simp [List.dropWhile] at h
  | cons c rest ih =>
    cases hpc : p c
    · simp [List.takeWhile_cons, hpc]
    · have h' : rest.dropWhile p ≠ [] := by
        simpa [List.dropWhile_cons, hpc] using h
      simp [List.cons_append, List.takeWhile_cons, hpc, ih h']

theorem dropWhile_append_ne {p : Char → Bool} {l₁ : Str} (l₂ : Str)
    (h : l₁.dropWhile p ≠ []) : (l₁ ++ l₂).dropWhile p = l₁.dropWhile p ++ l₂ := by
  induction l₁ with
  | nil => simp [List.dropWhile] at h
  | cons c rest ih =>
    cases hpc : p c
    · simp [List.dropWhile_cons, hpc]
    · have h' : rest.dropWhile p ≠ [] := by
        simpa [List.dropWhile_cons, hpc] using h
      simp [List.cons_append, List.dropWhile_cons, hpc, ih h']

theorem dropWhile_nil_of_all {p : Char → Bool} {l : Str}
    (h : ∀ c ∈ l, p c = true) : l.dropWhile p = [] :=
  List.dropWhile_eq_nil_iff.mpr h

theorem goFields_nil : goFields [] = [] := by rw [goFields]

theorem goFields_cons_space {c : Char} (s : Str) (h : goIsSpace c = true) :
    goFields (c :: s) = goFields s := by
  rw [goFields]
  simp [h]

theorem goFields_cons_word {c : Char} (s : Str) (h : goIsSpace c = false) :
    goFields (c :: s) = (c :: s.takeWhile (fun d => !goIsSpace d)) ::
      goFields (s.dropWhile (fun d => !goIsSpace d)) := by
  rw [goFields]
  simp [h]

theorem goFields_append_space {c : Char} (hc : goIsSpace c = true) (a b : Str) :
    goFields (a ++ c :: b) = goFields a ++ goFields b := by
  induction a using goFields.induct with
  | case1 =>
    simp only [List.nil_append, goFields_cons_space _ hc, goFields_nil,
      List.nil_append]
  | case2 d rest hd ih =>
    simp only [List.cons_append, goFields_cons_space _ hd, ih]
  | case3 d rest hd ih =>
    have hd' : goIsSpace d = false := by
      cases hgo : goIsSpace d
      · rfl
      · exact absurd hgo hd
    set p : Char → Bool := fun d => !goIsSpace d with hp
    by_cases hdrop : rest.dropWhile p = []
    · have htk : rest.takeWhile p = rest :=
        List.takeWhile_eq_self_iff.mpr (by
          intro x hx
          by_contra hpx
          have : rest.dropWhile p ≠ [] := by
            rw [Ne, List.dropWhile_eq_nil_iff]
            push_neg
            exact ⟨x, hx, hpx⟩
          exact this hdrop)
      rw [List.cons_append, goFields_cons_word _ hd',
        takeWhile_append_all _ hdrop, dropWhile_append_all _ hdrop,
        goFields_cons_word _ hd', htk]
      have hpc : p c = false := by simp [hp, hc]
      rw [List.takeWhile_cons, hpc]
      rw [List.dropWhile_cons, hpc]
      rw [hdrop]
      have : goFields (c :: b) = goFields b := goFields_cons_space _ hc
      simp [this, goFields]
    · rw [List.cons_append, goFields_cons_word _ hd',
        takeWhile_append_ne _ hdrop, dropWhile_append_ne _ hdrop,
        goFields_cons_word _ hd', ih]
      simp

theorem goFields_flatten_joinNl (ls : List Str) :
    goFields (joinNl ls) = (ls.map goFields).flatten := by
  induction ls with
  | nil => simp [joinNl, goFields]
  | cons l ls ih =>
    cases ls with
    | nil => simp [joinNl]
    | cons y ys =>
      have : joinNl (l :: y :: ys) = l ++ '\n' :: joinNl (y :: ys) := rfl
      rw [this, goFields_append_space (by decide), ih]
      simp

theorem goFields_words (s : Str) :
    ∀ wd ∈ goFields s, wd ≠ [] ∧ ∀ c ∈ wd, goIsSpace c = false := by
  induction s using goFields.induct with
  | case1 => simp [goFields]
  | case2 d rest hd ih =>
    rw [goFields_cons_space _ hd]
    exact ih
  | case3 d rest hd ih =>
    have hd' : goIsSpace d = false := by
      cases hgo : goIsSpace d
      · rfl
      · exact absurd hgo hd
    rw [goFields_cons_word _ hd']
    intro wd hwd
    simp only [List.mem_cons] at hwd
    rcases hwd with hwd | hwd
    · subst hwd
      refine ⟨by simp, ?_⟩
      intro c hcm
      simp only [List.mem_cons] at hcm
      rcases hcm with hcm | hcm
      · subst hcm; exact hd'
      · have := List.mem_takeWhile_imp hcm
        simpa using this
    · exact ih wd hwd

theorem goFields_all_space {s : Str} (h : ∀ c ∈ s, goIsSpace c = true) :
    goFields s = [] := by
  induction s with
  | nil => exact goFields_nil
  | cons c rest ih =>
    rw [goFields_cons_space _ (h c (List.mem_cons_self c rest))]
    exact ih fun d hd => h d (List.mem_cons_of_mem c hd)

theorem goTrimSpace_nil {s : Str} (h : goTrimSpace s = []) :
    ∀ c ∈ s, goIsSpace c = true := by
  unfold goTrimSpace at h
  have h1 : (s.dropWhile goIsSpace).reverse.dropWhile goIsSpace = [] := by
    rwa [List.reverse_eq_nil_iff] at h
  have h2 : ∀ c ∈ (s.dropWhile goIsSpace).reverse, goIsSpace c = true :=
    List.dropWhile_eq_nil_iff.mp h1
  have h3 : ∀ c ∈ s.dropWhile goIsSpace, goIsSpace c = true := by
    intro c hc
    exact h2 c (List.mem_reverse.mpr hc)
  intro c hc
  rw [← List.takeWhile_append_dropWhile (p := goIsSpace) (l := s)] at hc
  rcases List.mem_append.mp hc with hc | hc
  · exact List.mem_takeWhile_imp hc
  · exact h3 c hc

theorem goFields_word_prepend {word o : Str} (hne : word ≠ [])
    (hns : ∀ c ∈ word, goIsSpace c = false)
    (ho : o = [] ∨ ∃ d o', o = d :: o' ∧ goIsSpace d = true) :
    goFields (word ++ o) = word :: goFields o := by
  obtain ⟨c, wrest, rfl⟩ := List.exists_cons_of_ne_nil hne
  set p : Char → Bool := fun d => !goIsSpace d with hp
  have hall : ∀ x ∈ wrest, p x = true := by
    intro x hx
    simp [hp, hns x (List.mem_cons_of_mem c hx)]
  have hdrop : wrest.dropWhile p = [] := dropWhile_nil_of_all hall
  have hc' : goIsSpace c = false := hns c (List.mem_cons_self c wrest)
  rw [List.cons_append, goFields_cons_word _ hc',
    takeWhile_append_all _ hdrop, dropWhile_append_all _ hdrop]
  have htake : o.takeWhile p = [] := by
    rcases ho with rfl | ⟨d, o', rfl, hd⟩
    · simp
    · simp [List.takeWhile_cons, hp, hd]
  have hdropo : o.dropWhile p = o := by
    rcases ho with rfl | ⟨d, o', rfl, hd⟩
    · simp
    · simp [List.dropWhile_cons, hp, hd]
  rw [htake, hdropo]
  simp

theorem goSplitNl_word_prepend {a s : Str} (ha : ∀ c ∈ a, c ≠ '\n') {h : Str}
    {t : List Str} (hs : goSplitChar '\n' s = h :: t) :
    goSplitChar '\n' (a ++ s) = (a ++ h) :: t := by
  induction a with
  | nil => simpa using hs
  | cons c a' ih =>
    have hc : c ≠ '\n' := ha c (List.mem_cons_self c a')
    have ha' : ∀ d ∈ a', d ≠ '\n' := fun d hd => ha d (List.mem_cons_of_mem c hd)
    rw [List.cons_append, List.cons_append]
    exact goSplitChar_cons_ne hc _ (ih ha')

theorem wrapWordsGo_cons_eq (w : Int) (word : Str) (rest : List Str) (cur : Int)
    (first : Bool) (hshort : ¬ w < (word.length : Int))
    (hfc : first = true → cur = 0) :
    wrapWordsGo w (word :: rest) cur first =
      if w < cur + ((word.length : Int) + (if 0 < cur then 1 else 0)) then
        '\n' :: (word ++ wrapWordsGo w rest word.length false)
      else
        (if 0 < cur then [' '] else []) ++ word ++
          wrapWordsGo w rest (cur + ((word.length : Int) + (if 0 < cur then 1 else 0)))
            false := by
  simp only [wrapWordsGo, if_neg hshort]
  by_cases hcur0 : 0 < cur
  · have hfirstF : first = false := by
      cases first
      · rfl
      · exact absurd (hfc rfl) (by omega)
    subst hfirstF
    simp [hcur0]
  · simp [hcur0]

theorem wrapWordsGo_spec (w : Int) (hw : 0 < w) :
    ∀ (words : List Str) (cur : Int) (first : Bool),
      (∀ wd ∈ words,
        wd ≠ [] ∧ (∀ c ∈ wd, goIsSpace c = false) ∧ (wd.length : Int) ≤ w) →
      0 ≤ cur → cur ≤ w → (first = true → cur = 0) →
      (∃ l0 ls, goSplitChar '\n' (wrapWordsGo w words cur first) = l0 :: ls ∧
        cur + (l0.length : Int) ≤ w ∧ ∀ l ∈ ls, (l.length : Int) ≤ w) ∧
      goFields (wrapWordsGo w words cur first) = words ∧
      (0 < cur → wrapWordsGo w words cur first = [] ∨
        ∃ d o, wrapWordsGo w words cur first = d :: o ∧ goIsSpace d = true) := by
  intro words
  induction words with
  | nil =>
    intro cur first _ _ hcur _
    refine ⟨⟨[], [], by simp [wrapWordsGo, goSplitChar], by simpa using hcur,
      by simp⟩, by simp [wrapWordsGo, goFields_nil], fun _ => Or.inl rfl⟩
  | cons word rest ih =>
    intro cur first hwords h0 hcur hfirst
    obtain ⟨hne, hns, hlen⟩ := hwords word (List.mem_cons_self _ _)
    have hwords' := fun wd hwd => hwords wd (List.mem_cons_of_mem _ hwd)
    have hwlen1 : (1 : Int) ≤ (word.length : Int) := by
      cases word with
      | nil => exact absurd rfl hne
      | cons c cs =>
        simp only [List.length_cons]
        push_cast
        omega
    have hshort : ¬ w < (word.length : Int) := by omega
    have hwordnl : ∀ c ∈ word, c ≠ '\n' := by
      intro c hc heq
      subst heq
      have := hns '\n' hc
      simp [goIsSpace] at this
    have hwordspace : ∀ c ∈ word, goIsSpace c = false := hns
    rw [wrapWordsGo_cons_eq w word rest cur first hshort hfirst]
    by_cases hfit : w < cur + ((word.length : Int) + (if 0 < cur then 1 else 0))
    · -- newline branch: break the line, word starts a fresh line
      rw [if_pos hfit]
      obtain ⟨⟨l0', ls', hsplit', hbound', hls'⟩, hfields', hhead'⟩ :=
        ih word.length false hwords' (by omega) (by omega) (by simp)
      have hsplitword : goSplitChar '\n'
          (word ++ wrapWordsGo w rest (word.length : Int) false) =
          (word ++ l0') :: ls' := goSplitNl_word_prepend hwordnl hsplit'
      refine ⟨⟨[], (word ++ l0') :: ls', ?_, by simpa using hcur, ?_⟩, ?_, ?_⟩
      · rw [goSplitChar_cons_sep, hsplitword]
      · intro l hl
        simp only [List.mem_cons] at hl
        rcases hl with hl | hl
        · subst hl
          simp only [List.length_append]
          push_cast
          omega
        · exact hls' l hl
      · rw [goFields_cons_space (c := '\n') _ (by decide),
          goFields_word_prepend hne hwordspace (hhead' (by omega)), hfields']
      · intro _
        exact Or.inr ⟨'\n', _, rfl, by decide⟩
    · -- the word fits on the current line
      rw [if_neg hfit]
      set sn : Int := (word.length : Int) + (if 0 < cur then 1 else 0) with hsn
      obtain ⟨⟨l0', ls', hsplit', hbound', hls'⟩, hfields', hhead'⟩ :=
        ih (cur + sn) false hwords' (by omega) (by omega) (by simp)
      have hcurpos : 0 < cur + sn := by omega
      have hsplitword : goSplitChar '\n'
          (word ++ wrapWordsGo w rest (cur + sn) false) =
          (word ++ l0') :: ls' := goSplitNl_word_prepend hwordnl hsplit'
      by_cases hcur0 : 0 < cur
      · rw [if_pos hcur0]
        refine ⟨⟨' ' :: (word ++ l0'), ls', ?_, ?_, hls'⟩, ?_, ?_⟩
        · rw [List.singleton_append]
          exact goSplitChar_cons_ne (by decide) _ hsplitword
        · simp only [List.length_cons, List.length_append]
          push_cast
          simp only [hsn] at hbound'
          rw [if_pos hcur0] at hbound'
          push_cast at hbound'
          omega
        · simp only [List.singleton_append, List.cons_append, List.append_assoc,
            List.nil_append]
          rw [goFields_cons_space (c := ' ') _ (by decide),
            goFields_word_prepend hne hwordspace (hhead' hcurpos), hfields']
        · intro _
          exact Or.inr ⟨' ', word ++ wrapWordsGo w rest (cur + sn) false,
            by simp, by decide⟩
      · rw [if_neg hcur0]
        have hcz : cur = 0 := by omega
        refine ⟨⟨word ++ l0', ls', ?_, ?_, hls'⟩, ?_, ?_⟩
        · simpa using hsplitword
        · simp only [List.length_append]
          push_cast
          simp only [hsn] at hbound'
          rw [if_neg hcur0] at hbound'
          push_cast at hbound'
          omega
        · simp only [List.nil_append]
          rw [goFields_word_prepend hne hwordspace (hhead' hcurpos), hfields']
        · intro hcp
          exact absurd hcp hcur0

theorem wrapPlainLine_spec (line : Str) (w : Int) (hw : 0 < w)
    (hwords : ∀ wd ∈ goFields line, (wd.length : Int) ≤ w) :
    (∀ l ∈ goSplitChar '\n' (wrapPlainLine line w), (l.length : Int) ≤ w) ∧
    goFields (wrapPlainLine line w) = goFields line := by
  cases hgf : goFields line with
  | nil =>
    have hout : wrapPlainLine line w = [] := by
      unfold wrapPlainLine
      rw [hgf]
    rw [hout]
    constructor
    · intro l hl
      simp only [goSplitChar, List.mem_singleton] at hl
      subst hl
      simp
      omega
    · rw [goFields_nil]
  | cons w0 ws =>
    have hout : wrapPlainLine line w = wrapWordsGo w (goFields line) 0 true := by
      unfold wrapPlainLine
      rw [hgf]
    have hhyp : ∀ wd ∈ goFields line,
        wd ≠ [] ∧ (∀ c ∈ wd, goIsSpace c = false) ∧ (wd.length : Int) ≤ w := by
      intro wd hwd
      obtain ⟨h1, h2⟩ := goFields_words line wd hwd
      exact ⟨h1, h2, hwords wd hwd⟩
    obtain ⟨⟨l0, ls, hsplit, hb, hl⟩, hf, _⟩ :=
      wrapWordsGo_spec w hw (goFields line) 0 true hhyp le_rfl (by omega)
        (fun _ => rfl)
    rw [hout]
    refine ⟨?_, by rw [hf, hgf]⟩
    intro l hlm
    rw [hsplit] at hlm
    simp only [List.mem_cons] at hlm
    rcases hlm with hlm | hlm
    · subst hlm; omega
    · exact hl l hlm

theorem wrapLine_spec (line : Str) (w : Int) (hw : 0 < w)
    (hesc : escChar ∉ line) (hnl : '\n' ∉ line)
    (hwords : ∀ wd ∈ goFields line, (wd.length : Int) ≤ w) :
    (∀ l ∈ goSplitChar '\n' (wrapLine line w), (visWidth l : Int) ≤ w) ∧
    goFields (wrapLine line w) = goFields line := by
  unfold wrapLine
  by_cases hfit : (visWidth line : Int) ≤ w
  · rw [if_pos hfit]
    refine ⟨?_, rfl⟩
    intro l hl
    rw [goSplitChar_single hnl] at hl
    simp only [List.mem_singleton] at hl
    subst hl
    exact hfit
  · rw [if_neg hfit, goContainsSeq_eq_false hesc]
    simp only [Bool.false_eq_true, if_false]
    obtain ⟨hlen, hf⟩ := wrapPlainLine_spec line w hw hwords
    refine ⟨?_, hf⟩
    intro l hl
    have h1 : (visWidth l : Int) ≤ (l.length : Int) := by
      exact_mod_cast visWidth_le_length l
    exact le_trans h1 (hlen l hl)

theorem goFields_of_trim_nil {l : Str} (h : goTrimSpace l = []) :
    goFields l = [] :=
  goFields_all_space (goTrimSpace_nil h)

/-- The width-and-reconstruction core of the amended wrap claim, at the level
of `WrapText`. -/
theorem wrapTextGo_spec (text : Str) (w : Int) (hw : 0 < w)
    (hesc : escChar ∉ text)
    (hwords : ∀ wd ∈ goFields text, (wd.length : Int) ≤ w) :
    (∀ l ∈ goSplitChar '\n' (wrapTextGo text w), (visWidth l : Int) ≤ w) ∧
    goFields (wrapTextGo text w) = goFields text := by
  have hwpos : ¬ w ≤ 0 := by omega
  have hout : wrapTextGo text w = joinNl ((goSplitChar '\n' text).map
      (fun l => if goTrimSpace l = [] then [] else wrapLine l w)) := by
    unfold wrapTextGo
    rw [if_neg hwpos]
  set f : Str → Str := fun l => if goTrimSpace l = [] then [] else wrapLine l w
    with hfdef
  set ls : List Str := goSplitChar '\n' text with hls
  have hlsne : ls ≠ [] := goSplitChar_ne_nil '\n' text
  have hmapne : ls.map f ≠ [] := by
    intro hcon
    exact hlsne (List.map_eq_nil_iff.mp hcon)
  have hperline : ∀ l ∈ ls,
      (∀ x ∈ goSplitChar '\n' (f l), (visWidth x : Int) ≤ w) ∧
      goFields (f l) = goFields l := by
    intro l hlm
    have hlesc : escChar ∉ l := by
      intro hcm
      exact hesc (goSplitChar_chars '\n' text l hlm escChar hcm)
    have hlnl : '\n' ∉ l := goSplitChar_not_mem '\n' text l hlm
    have hlwords : ∀ wd ∈ goFields l, (wd.length : Int) ≤ w := by
      intro wd hwd
      apply hwords
      have htext : goFields text = (ls.map goFields).flatten := by
        conv_lhs => rw [← joinNl_goSplitChar text]
        exact goFields_flatten_joinNl ls
      rw [htext]
      rw [List.mem_flatten]
      exact ⟨goFields l, List.mem_map_of_mem goFields hlm, hwd⟩
    by_cases htrim : goTrimSpace l = []
    · constructor
      · intro x hx
        simp only [hfdef, if_pos htrim] at hx
        simp only [goSplitChar, List.mem_singleton] at hx
        subst hx
        simp [visWidth, visScan]
        omega
      · simp only [hfdef, if_pos htrim, goFields_nil,
          goFields_of_trim_nil htrim]
    · simp only [hfdef, if_neg htrim]
      exact wrapLine_spec l w hw hlesc hlnl hlwords
  constructor
  · intro l hl
    rw [hout] at hl
    rw [goSplitNl_joinNl (ls.map f) hmapne] at hl
    rw [List.mem_flatten] at hl
    obtain ⟨x, hx, hlx⟩ := hl
    rw [List.map_map, List.mem_map] at hx
    obtain ⟨l0, hl0, rfl⟩ := hx
    exact (hperline l0 hl0).1 l hlx
  · rw [hout, goFields_flatten_joinNl]
    have htext : goFields text = (ls.map goFields).flatten := by
      conv_lhs => rw [← joinNl_goSplitChar text]
      exact goFields_flatten_joinNl ls
    rw [htext, List.map_map]
    congr 1
    exact List.map_congr_left (fun l hlm => (hperline l hlm).2)

/-!
### No escape sequence is split by `wrapStyledLine`
-/

theorem nsScan_append (a b : Str) (st : Bool) :
    nsScan (a ++ b) st =
      ((nsScan a st).1 && (nsScan b (nsScan a st).2).1,
        (nsScan b (nsScan a st).2).2) := by
  induction a generalizing st with
  | nil => simp [nsScan]
  | cons c rest ih =>
    simp only [List.cons_append, nsScan]
    by_cases hc : c = escChar
    · simp [hc, ih]
    · by_cases hst : st
      · simp only [if_neg hc, hst, if_true, List.append_eq]
        rw [ih]
        simp [Bool.and_assoc]
      · simp [hc, hst, ih]

theorem nsScan_flatten {act : List Str}
    (h : ∀ q ∈ act, nsScan q false = (true, false)) :
    nsScan act.flatten false = (true, false) := by
  induction act with
  | nil => simp [nsScan]
  | cons q rest ih =>
    rw [List.flatten_cons, nsScan_append, h q (List.mem_cons_self q rest)]
    simp only
    rw [ih (fun p hp => h p (List.mem_cons_of_mem q hp))]
    simp

theorem nsScan_mid {mids : Str} (hnl : '\n' ∉ mids) (hm : 'm' ∉ mids) :
    nsScan (mids ++ ['m']) true = (true, false) := by
  induction mids with
  | nil => simp [nsScan, show 'm' ≠ escChar by decide]
  | cons c rest ih =>
    have hcnl : c ≠ '\n' := fun hc => hnl (hc ▸ List.mem_cons_self c rest)
    have hcm : c ≠ 'm' := fun hc => hm (hc ▸ List.mem_cons_self c rest)
    have hrest : '\n' ∉ rest := fun hx => hnl (List.mem_cons_of_mem c hx)
    have hrestm : 'm' ∉ rest := fun hx => hm (List.mem_cons_of_mem c hx)
    simp only [List.cons_append, nsScan]
    by_cases hcesc : c = escChar
    · simp [hcesc, ih hrest hrestm]
    · simp [hcesc, hcm, hcnl, ih hrest hrestm]

theorem nsScan_seq {mids : Str} (hnl : '\n' ∉ mids) (hm : 'm' ∉ mids) :
    nsScan (escChar :: (mids ++ ['m'])) false = (true, false) := by
  have h1 : nsScan (escChar :: (mids ++ ['m'])) false =
      nsScan (mids ++ ['m']) true := by
    simp [nsScan]
  rw [h1]
  exact nsScan_mid hnl hm

theorem wrapStyledGo_noSplit (w : Int) :
    ∀ (line : Str) (inEsc : Bool) (seqAcc : Str) (act : List Str) (curW : Int),
      '\n' ∉ line →
      (inEsc = true → ∃ mids, seqAcc = escChar :: mids ∧ '\n' ∉ mids ∧ 'm' ∉ mids) →
      (∀ q ∈ act, nsScan q false = (true, false)) →
      nsScan (wrapStyledGo w line inEsc seqAcc act curW) false = (true, false) := by
  intro line
  induction line with
  | nil =>
    intro inEsc seqAcc act curW _ _ _
    simp [wrapStyledGo, nsScan]
  | cons c rest ih =>
    intro inEsc seqAcc act curW hnl hseq hact
    have hcnl : c ≠ '\n' := fun hc => hnl (hc ▸ List.mem_cons_self c rest)
    have hrestnl : '\n' ∉ rest := fun hx => hnl (List.mem_cons_of_mem c hx)
    simp only [wrapStyledGo]
    by_cases hc : c = escChar
    · rw [if_pos hc]
      exact ih true [escChar] act curW hrestnl
        (fun _ => ⟨[], rfl, by simp, by simp⟩) hact
    · rw [if_neg hc]
      by_cases hesc : inEsc
      · rw [hesc]
        simp only [if_true]
        obtain ⟨mids, hseqe, hmnl, hmm⟩ := hseq hesc
        by_cases hcm : c = 'm'
        · rw [if_pos hcm]
          have hseqscan : nsScan (seqAcc ++ [c]) false = (true, false) := by
            rw [hseqe, hcm, List.cons_append]
            exact nsScan_seq hmnl hmm
          rw [nsScan_append, hseqscan]
          simp only
          have hact' : ∀ q ∈ (if seqAcc ++ [c] = resetSeq then []
              else act ++ [seqAcc ++ [c]]), nsScan q false = (true, false) := by
            by_cases hres : seqAcc ++ [c] = resetSeq
            · simp [hres]
            · rw [if_neg hres]
              intro q hq
              rcases List.mem_append.mp hq with hq | hq
              · exact hact q hq
              · rw [List.mem_singleton] at hq
                subst hq
                exact hseqscan
          rw [ih false (seqAcc ++ [c]) _ curW hrestnl (by simp) hact']
          simp
        · rw [if_neg hcm]
          refine ih true (seqAcc ++ [c]) act curW hrestnl ?_ hact
          intro _
          refine ⟨mids ++ [c], by rw [hseqe, List.cons_append], ?_, ?_⟩
          · intro hx
            rcases List.mem_append.mp hx with hx | hx
            · exact hmnl hx
            · rw [List.mem_singleton] at hx
              exact hcnl hx.symm
          · intro hx
            rcases List.mem_append.mp hx with hx | hx
            · exact hmm hx
            · rw [List.mem_singleton] at hx
              exact hcm hx.symm
      · simp only [hesc, Bool.false_eq_true, if_false]
        by_cases hwle : w ≤ curW
        · rw [if_pos hwle]
          have h1 : nsScan ('\n' :: (List.flatten act ++ c ::
              wrapStyledGo w rest false seqAcc act 1)) false =
              nsScan (List.flatten act ++ c ::
                wrapStyledGo w rest false seqAcc act 1) false := by
            simp [nsScan, show '\n' ≠ escChar by decide]
          rw [h1, nsScan_append, nsScan_flatten hact]
          simp only
          have h2 : nsScan (c :: wrapStyledGo w rest false seqAcc act 1) false =
              nsScan (wrapStyledGo w rest false seqAcc act 1) false := by
            simp [nsScan, hc]
          rw [h2, ih false seqAcc act 1 hrestnl (by simp) hact]
          simp
        · rw [if_neg hwle]
          have h2 : nsScan (c :: wrapStyledGo w rest false seqAcc act
              (curW + 1)) false =
              nsScan (wrapStyledGo w rest false seqAcc act (curW + 1)) false := by
            simp [nsScan, hc]
          rw [h2]
          exact ih false seqAcc act (curW + 1) hrestnl (by simp) hact

/-!
### Truncation lemmas
-/

theorem truncStyledGo_width (w : Int) (hw : 3 < w) :
    ∀ (s : Str) (inEsc : Bool) (cnt : Int), 0 ≤ cnt → cnt ≤ w - 3 →
      ((visScan (truncStyledGo w s inEsc cnt) inEsc).1 : Int) ≤ (w - 3 - cnt) + 3 := by
  intro s
  induction s with
  | nil =>
    intro inEsc cnt _ _
    simp [truncStyledGo, visScan]
    omega
  | cons c rest ih =>
    intro inEsc cnt h0 hle
    simp only [truncStyledGo]
    by_cases hc : c = escChar
    · rw [if_pos hc]
      have h1 : visScan (c :: truncStyledGo w rest true cnt) inEsc =
          visScan (truncStyledGo w rest true cnt) true := by
        simp [visScan, hc]
      rw [h1]
      exact ih true cnt h0 hle
    · rw [if_neg hc]
      by_cases hesc : inEsc
      · rw [hesc]
        simp only [if_true]
        have h1 : visScan (c :: truncStyledGo w rest (decide (c ≠ 'm')) cnt) true =
            visScan (truncStyledGo w rest (decide (c ≠ 'm')) cnt)
              (decide (c ≠ 'm')) := by
          simp [visScan, hc]
        rw [h1]
        exact ih _ cnt h0 hle
      · simp only [hesc, Bool.false_eq_true, if_false]
        by_cases hcnt : w - 3 ≤ cnt
        · rw [if_pos hcnt]
          have hval : (visScan ('.' :: '.' :: '.' :: resetSeq) false).1 = 3 := by
            decide
          rw [hval]
          omega
        · rw [if_neg hcnt]
          have h1 : visScan (c :: truncStyledGo w rest false (cnt + 1)) false =
              ((visScan (truncStyledGo w rest false (cnt + 1)) false).1 + 1,
                (visScan (truncStyledGo w rest false (cnt + 1)) false).2) := by
            simp [visScan, hc]
          rw [h1]
          have := ih false (cnt + 1) (by omega) (by omega)
          push_cast
          push_cast at this
          omega

theorem truncStyledGo_reset (w : Int) :
    ∀ (s : Str) (inEsc : Bool) (cnt : Int), cnt ≤ w - 3 →
      w - 3 < cnt + ((visScan s inEsc).1 : Int) →
      ∃ pre, truncStyledGo w s inEsc cnt = pre ++ ('.' :: '.' :: '.' :: resetSeq) := by
  intro s
  induction s with
  | nil =>
    intro inEsc cnt hle hlt
    simp [visScan] at hlt
    omega
  | cons c rest ih =>
    intro inEsc cnt hle hlt
    simp only [truncStyledGo]
    by_cases hc : c = escChar
    · rw [if_pos hc]
      have h1 : (visScan (c :: rest) inEsc).1 = (visScan rest true).1 := by
        simp [visScan, hc]
      rw [h1] at hlt
      obtain ⟨pre, hpre⟩ := ih true cnt hle hlt
      exact ⟨c :: pre, by rw [List.cons_append, hpre]⟩
    · rw [if_neg hc]
      by_cases hesc : inEsc
      · rw [hesc]
        simp only [if_true]
        have h1 : (visScan (c :: rest) inEsc).1 =
            (visScan rest (decide (c ≠ 'm'))).1 := by
          rw [hesc]
          simp [visScan, hc]
        rw [h1] at hlt
        obtain ⟨pre, hpre⟩ := ih _ cnt hle hlt
        exact ⟨c :: pre, by rw [List.cons_append, hpre]⟩
      · simp only [hesc, Bool.false_eq_true, if_false]
        by_cases hcnt : w - 3 ≤ cnt
        · rw [if_pos hcnt]
          exact ⟨[], rfl⟩
        · rw [if_neg hcnt]
          have h1 : (visScan (c :: rest) inEsc).1 =
              (visScan rest false).1 + 1 := by
            have : inEsc = false := by
              cases inEsc
              · rfl
              · exact absurd rfl hesc
            rw [this]
            simp [visScan, hc]
          rw [h1] at hlt
          have := ih false (cnt + 1) (by omega) (by push_cast at hlt ⊢; omega)
          obtain ⟨pre, hpre⟩ := this
          exact ⟨c :: pre, by rw [List.cons_append, hpre]⟩

/-- C5 counterexample: at `w = 5 > 0`, `WrapText "aaaaaaaa bb" 5` produces the
line `"aaaabb"` of visible width `6 > 5` (the hard-split loop resets
`currentLineLen` to `len(word) % (maxWidth-1) = 0`, so the next word is glued
to the last chunk without a break), and the output words `["aaaa-", "aaaabb"]`
do not reconstruct the input words `["aaaaaaaa", "bb"]` (a hyphen is
inserted).  This refutes both the `≤ w` clause and the reconstruction clause
of the claim as stated. -/
theorem wrapText_claim_counterexample :
    (0 : Int) < 5 ∧
    ((goSplitChar '\n' (wrapTextGo ("aaaaaaaa bb").data 5)).any
      (fun l => decide (5 < (visWidth l : Int))) = true) ∧
    goFields (wrapTextGo ("aaaaaaaa bb").data 5) ≠ goFields ("aaaaaaaa bb").data := by
  refine ⟨by norm_num, ?_, ?_⟩ <;>
    simp [wrapTextGo, wrapLine, wrapPlainLine, wrapWordsGo, hardChunks, goFields,
      goIsSpace, goSplitChar, goTrimSpace, goContainsSeq, visWidth, visScan,
      joinNl, escChar]

/-- C5 (amended): for every plain text (no escape rune) and `w > 0` in which
every word is at most `w` runes, `WrapText text w` produces lines of visible
width `≤ w` and the word sequence of the output equals the word sequence of
the input; and for every input line without a newline, `wrapStyledLine` never
splits an `ESC ... m` escape sequence across output lines.  (The unamended
claim fails for words longer than `w`, see `wrapText_claim_counterexample`.) -/
theorem wrapText_wrap_amended :
    (∀ (text : Str) (w : Int), 0 < w → escChar ∉ text →
      (∀ wd ∈ goFields text, (wd.length : Int) ≤ w) →
      (∀ l ∈ goSplitChar '\n' (wrapTextGo text w), (visWidth l : Int) ≤ w) ∧
      goFields (wrapTextGo text w) = goFields text) ∧
    (∀ (line : Str) (w : Int), '\n' ∉ line →
      noSplitEsc (wrapStyledLine line w) = true) := by
  constructor
  · intro text w hw hesc hwords
    exact wrapTextGo_spec text w hw hesc hwords
  · intro line w hnl
    have h := wrapStyledGo_noSplit w line false [] [] 0 hnl
      (fun h => by simp at h) (fun q hq => by simp at hq)
    unfold noSplitEsc wrapStyledLine
    rw [h]

/-- Concrete instantiation of `wrapText_wrap_amended`. -/
theorem wrapText_wrap_amended_witness :
    (∀ l ∈ goSplitChar '\n' (wrapTextGo ("hello world").data 10),
      (visWidth l : Int) ≤ 10) ∧
    goFields (wrapTextGo ("hello world").data 10) =
      goFields ("hello world").data ∧
    noSplitEsc (wrapStyledLine ("\x1b[36mhello\x1b[0m world").data 4) = true := by
  have hwords : ∀ wd ∈ goFields ("hello world").data, (wd.length : Int) ≤ 10 := by
    simp [goFields, goIsSpace]
  refine ⟨(wrapText_wrap_amended.1 ("hello world").data 10 (by norm_num)
      (by decide) hwords).1,
    (wrapText_wrap_amended.1 ("hello world").data 10 (by norm_num)
      (by decide) hwords).2,
    wrapText_wrap_amended.2 ("\x1b[36mhello\x1b[0m world").data 4 (by decide)⟩

/-- C6: `TruncateText` returns the bare ellipsis for every `w ≤ 3`; for every
`w > 3` the output has visible width `≤ w`; and when styled text is actually
truncated (it contains `"\x1b["` and its visible width exceeds `w`), the
output ends in `"..." ++ "\x1b[0m"`, resetting any open style state at the
truncation point. -/
theorem truncateText_spec (text : Str) (w : Int) :
    (w ≤ 3 → truncateText text w = ['.', '.', '.']) ∧
    (3 < w → (visWidth (truncateText text w) : Int) ≤ w) ∧
    (3 < w → goContainsSeq escChar '[' text = true → w < (visWidth text : Int) →
      ∃ pre, truncateText text w = pre ++ ('.' :: '.' :: '.' :: resetSeq)) := by
  refine ⟨?_, ?_, ?_⟩
  · intro h3
    unfold truncateText
    rw [if_pos h3]
  · intro h3
    unfold truncateText
    rw [if_neg (by omega)]
    by_cases hfit : (visWidth text : Int) ≤ w
    · rw [if_pos hfit]
      exact hfit
    · rw [if_neg hfit]
      by_cases hstyled : goContainsSeq escChar '[' text = true
      · simp only [hstyled, Bool.not_true, Bool.false_eq_true, if_false]
        have h := truncStyledGo_width w h3 text false 0 (by omega) (by omega)
        unfold visWidth
        omega
      · have hpl : goContainsSeq escChar '[' text = false := by
          simpa using hstyled
        simp only [hpl, Bool.not_false, if_true]
        by_cases hlong : w - 3 < (text.length : Int)
        · rw [if_pos hlong]
          have h1 := visWidth_le_length (text.take (w - 3).toNat ++ ['.', '.', '.'])
          have h2 : (text.take (w - 3).toNat ++ ['.', '.', '.']).length =
              (text.take (w - 3).toNat).length + 3 := by simp
          have h3' : (text.take (w - 3).toNat).length ≤ (w - 3).toNat := by
            simp [List.length_take]
          have h4 : ((w - 3).toNat : Int) = w - 3 := Int.toNat_of_nonneg (by omega)
          omega
        · rw [if_neg hlong]
          have h1 := visWidth_le_length text
          omega
  · intro h3 hstyled hover
    unfold truncateText
    rw [if_neg (by omega), if_neg (by omega)]
    simp only [hstyled, Bool.not_true, Bool.false_eq_true, if_false]
    exact truncStyledGo_reset w text false 0 (by omega)
      (by unfold visWidth at hover; omega)

/-!
### Styles (model of `lipgloss.Style` and `theme.Styles`)

A style is modelled by the SGR parameter string of the sequence it would
emit: `render st s = "\x1b[" ++ params ++ "m" ++ s ++ "\x1b[0m"`.  `Bold`,
`Italic` and `Underline` append the corresponding SGR parameter.  Every style
of the cyberpunk theme carries a colour, so the wrap is unconditional.
-/

structure GoStyle where
  params : Str

/-- `lipgloss.Style.Render`. -/
def GoStyle.render (st : GoStyle) (s : Str) : Str :=
  escChar :: '[' :: (st.params ++ 'm' :: (s ++ resetSeq))

/-- `Style.Bold(b)`. -/
def GoStyle.bold (st : GoStyle) (b : Bool) : GoStyle :=
  if b then ⟨st.params ++ [';', '1']⟩ else st

/-- `Style.Italic(b)`. -/
def GoStyle.italic (st : GoStyle) (b : Bool) : GoStyle :=
  if b then ⟨st.params ++ [';', '3']⟩ else st

/-- `Style.Underline(b)`. -/
def GoStyle.underline (st : GoStyle) (b : Bool) : GoStyle :=
  if b then ⟨st.params ++ [';', '4']⟩ else st

/-- The fields of `theme.Styles` that the embedded code reads. -/
structure Styles where
  dim : GoStyle
  cyan : GoStyle
  neon : GoStyle
  green : GoStyle
  yellow : GoStyle
  muted : GoStyle
  body : GoStyle
  red : GoStyle
  blue : GoStyle
  purple : GoStyle
  orange : GoStyle
  link : GoStyle

/-- A concrete theme for witnesses (SGR colour codes; the real theme uses
true-colour sequences, any parameter strings without `m` behave alike). -/
def demoStyles : Styles :=
  { dim := ⟨['2']⟩, cyan := ⟨['3', '6']⟩, neon := ⟨['9', '5']⟩,
    green := ⟨['3', '2']⟩, yellow := ⟨['3', '3']⟩, muted := ⟨['9', '0']⟩,
    body := ⟨['3', '7']⟩, red := ⟨['3', '1']⟩, blue := ⟨['3', '4']⟩,
    purple := ⟨['3', '5']⟩, orange := ⟨['3', '8']⟩, link := ⟨['3', '6', ';', '4']⟩ }

/-!
### Markdown renderer (`ui/markdown.go`, the revision cited by the claims)

This revision's `MarkdownRenderer` struct holds only `styles`; `renderTable`
computes column widths purely from cell contents (no `maxWidth` parameter
exists anywhere in the type).
-/

/-- `MarkdownRenderer.isTableRow`. -/
def isTableRow (line : Str) : Bool :=
  let t := goTrimSpace line
  goStartsWith ['|'] t && goEndsWith ['|'] t

/-- `MarkdownRenderer.isTableSeparator`. -/
def isTableSeparator (line : Str) : Bool :=
  let t := goTrimSpace line
  if !goStartsWith ['|'] t then false
  else
    (goRemoveChar ' ' (goRemoveChar ':' (goRemoveChar '-'
      (goRemoveChar '|' t)))).length = 0

/-- `MarkdownRenderer.parseTableRow`. -/
def parseTableRow (line : Str) : List Str :=
  (goSplitChar '|' (goTrimSfx ['|'] (goTrimPfx ['|'] (goTrimSpace line)))).map
    goTrimSpace

/-- `MarkdownRenderer.padCenter`. -/
def padCenter (text : Str) (width : Int) : Str :=
  if width ≤ (text.length : Int) then text
  else
    let leftPad := (width - (text.length : Int)) / 2
    let rightPad := width - (text.length : Int) - leftPad
    goRepeat [' '] leftPad ++ text ++ goRepeat [' '] rightPad

/-- Go's `for i, x { emit x; if i < n-1 emit sep }` pattern. -/
def goIntercalate (sep : Str) : List Str → Str
  | [] => []
  | [x] => x
  | x :: rest => x ++ sep ++ goIntercalate sep rest

/-- Pad a parsed row to the header's column count and cut it there
(`for len(row) < numCols { row = append(row, "") }; row[:numCols]`). -/
def padRow (numCols : Nat) (row : List Str) : List Str :=
  (row ++ List.replicate (numCols - row.length) []).take numCols

/-- The column widths of `renderTable`: per column the maximum cell length,
plus 2, at least 5.  No cap is applied (this revision has no `maxWidth`). -/
def tableColWidths (header : List Str) (dataRows : List (List Str)) : List Int :=
  let base := header.map (fun h => (h.length : Int))
  let content := dataRows.foldl
    (fun acc row => acc.zipWith max (row.map (fun c => (c.length : Int)))) base
  content.map (fun x => max (x + 2) 5)

/-- One horizontal border of the table (`┌──┬──┐` and friends). -/
def tableBorder (styles : Styles) (corner1 mid corner2 : Char)
    (colWidths : List Int) : Str :=
  styles.cyan.render [corner1] ++
    goIntercalate (styles.cyan.render [mid])
      (colWidths.map (fun w => styles.dim.render (goRepeat ['─'] w))) ++
    styles.cyan.render [corner2]

/-- The data-row loop of `renderTable` (`colorCycle[rowIdx%2]`). -/
def renderDataRows (styles : Styles) (colWidths : List Int) :
    List (List Str) → Nat → Str
  | [], _ => []
  | row :: rest, idx =>
    let rowStyle := if idx % 2 = 0 then styles.body else styles.muted
    styles.dim.render ['│'] ++
      goIntercalate (styles.dim.render ['│'])
        ((row.zip colWidths).map (fun p => rowStyle.render (padCenter p.1 p.2))) ++
      styles.dim.render ['│'] ++ ['\n'] ++ renderDataRows styles colWidths rest (idx + 1)

/-- `MarkdownRenderer.renderTable` (this revision: widths from content only,
cells never truncated). -/
def renderTable (styles : Styles) (tlines : List Str) : Str :=
  match tlines with
  | l0 :: _ :: rest2 =>
    let header := parseTableRow l0
    let numCols := header.length
    let dataRows := (rest2.filter (fun l => !isTableSeparator l)).map
      (fun l => padRow numCols (parseTableRow l))
    let colWidths := tableColWidths header dataRows
    tableBorder styles '┌' '┬' '┐' colWidths ++ ['\n'] ++
      styles.cyan.render ['│'] ++
        goIntercalate (styles.cyan.render ['│'])
          ((header.zip colWidths).map
            (fun p => (styles.neon.bold true).render (padCenter p.1 p.2))) ++
        styles.cyan.render ['│'] ++ ['\n'] ++
      tableBorder styles '├' '┼' '┤' colWidths ++ ['\n'] ++
      renderDataRows styles colWidths dataRows 0 ++
      tableBorder styles '└' '┴' '┘' colWidths
  | _ => []

/-- Leftmost split at a single rune: `(before, after)` around the first
occurrence. -/
def splitAtChar (c : Char) : Str → Option (Str × Str)
  | [] => none
  | d :: rest =>
    if d = c then some ([], rest)
    else (splitAtChar c rest).map (fun p => (d :: p.1, p.2))

theorem splitAtChar_shrink (c : Char) :
    ∀ {s inner rest}, splitAtChar c s = some (inner, rest) →
      rest.length < s.length := by
  intro s
  induction s with
  | nil => intro inner rest h; simp [splitAtChar] at h
  | cons d tail ih =>
    intro inner rest h
    simp only [splitAtChar] at h
    by_cases hd : d = c
    · rw [if_pos hd] at h
      simp only [Option.some.injEq, Prod.mk.injEq] at h
      obtain ⟨_, h2⟩ := h
      subst h2
      simp only [List.length_cons]
      omega
    · rw [if_neg hd] at h
      cases htl : splitAtChar c tail with
      | none => rw [htl] at h; simp at h
      | some p =>
        obtain ⟨pi, pr⟩ := p
        rw [htl] at h
        simp only [Option.map_some', Option.some.injEq, Prod.mk.injEq] at h
        obtain ⟨_, h2⟩ := h
        subst h2
        have := ih htl
        simp only [List.length_cons]
        omega

/-- One attempt of `\*\*([^*]+)\*\*` at the current position: returns the
matched text and the remainder. -/
def tryBoldStars (s : Str) : Option (Str × Str) :=
  match s with
  | c1 :: c2 :: t =>
    if c1 = '*' && c2 = '*' then
      match splitAtChar '*' t with
      | some (inner, after) =>
        if inner = [] then none
        else
          match after with
          | a :: t2 =>
            if a = '*' then some ('*' :: '*' :: (inner ++ ['*', '*']), t2)
            else none
          | [] => none
      | none => none
    else none
  | _ => none

/-- One attempt of `__([^_]+)__` at the current position. -/
def tryBoldUnder (s : Str) : Option (Str × Str) :=
  match s with
  | c1 :: c2 :: t =>
    if c1 = '_' && c2 = '_' then
      match splitAtChar '_' t with
      | some (inner, after) =>
        if inner = [] then none
        else
          match after with
          | a :: t2 =>
            if a = '_' then some ('_' :: '_' :: (inner ++ ['_', '_']), t2)
            else none
          | [] => none
      | none => none
    else none
  | _ => none

theorem tryBoldStars_shrink :
    ∀ {s m rest}, tryBoldStars s = some (m, rest) → rest.length < s.length := by
  intro s m rest h
  match s with
  | [] => simp [tryBoldStars] at h
  | [c] => simp [tryBoldStars] at h
  | c1 :: c2 :: t =>
    simp only [tryBoldStars] at h
    by_cases hc : c1 = '*' && c2 = '*'
    swap
    · rw [if_neg hc] at h; simp at h
    · rw [if_pos hc] at h
      cases hsp : splitAtChar '*' t with
      | none => rw [hsp] at h; simp at h
      | some p =>
        obtain ⟨inner, after⟩ := p
        rw [hsp] at h
        simp only [] at h
        by_cases hi : inner = []
        · rw [if_pos hi] at h; simp at h
        · rw [if_neg hi] at h
          cases after with
          | nil => simp at h
          | cons a t2 =>
            simp only [] at h
            by_cases ha : a = '*'
            swap
            · rw [if_neg ha] at h; simp at h
            · rw [if_pos ha] at h
              simp only [Option.some.injEq, Prod.mk.injEq] at h
              obtain ⟨_, h2⟩ := h
              subst h2
              have h1 := splitAtChar_shrink '*' hsp
              simp only [List.length_cons] at h1 ⊢
              omega

theorem tryBoldUnder_shrink :
    ∀ {s m rest}, tryBoldUnder s = some (m, rest) → rest.length < s.length := by
  intro s m rest h
  match s with
  | [] => simp [tryBoldUnder] at h
  | [c] => simp [tryBoldUnder] at h
  | c1 :: c2 :: t =>
    simp only [tryBoldUnder] at h
    by_cases hc : c1 = '_' && c2 = '_'
    swap
    · rw [if_neg hc] at h; simp at h
    · rw [if_pos hc] at h
      cases hsp : splitAtChar '_' t with
      | none => rw [hsp] at h; simp at h
      | some p =>
        obtain ⟨inner, after⟩ := p
        rw [hsp] at h
        simp only [] at h
        by_cases hi : inner = []
        · rw [if_pos hi] at h; simp at h
        · rw [if_neg hi] at h
          cases after with
          | nil => simp at h
          | cons a t2 =>
            simp only [] at h
            by_cases ha : a = '_'
            swap
            · rw [if_neg ha] at h; simp at h
            · rw [if_pos ha] at h
              simp only [Option.some.injEq, Prod.mk.injEq] at h
              obtain ⟨_, h2⟩ := h
              subst h2
              have h1 := splitAtChar_shrink '_' hsp
              simp only [List.length_cons] at h1 ⊢
              omega

/-- `processInlineCode`: replace every backtick-delimited `code` span
(leftmost, non-empty inner) by `⟨code⟩`, cyan brackets and green code. -/
def processInlineCode (styles : Styles) : Str → Str
  | [] => []
  | c :: rest =>
    if c = '`' then
      match hm : splitAtChar '`' rest with
      | some (inner, rest') =>
        if inner = [] then c :: processInlineCode styles rest
        else
          styles.cyan.render ['⟨'] ++
            styles.green.render (goTrimSet ['`'] ('`' :: (inner ++ ['`']))) ++
            styles.cyan.render ['⟩'] ++ processInlineCode styles rest'
      | none => c :: processInlineCode styles rest
    else c :: processInlineCode styles rest
termination_by s => s.length
decreasing_by
  · simp only [List.length_cons]; omega
  · have := splitAtChar_shrink '`' hm
    simp only [List.length_cons]
    omega
  · simp only [List.length_cons]; omega
  · simp only [List.length_cons]; omega

/-- `processBold`: `\*\*([^*]+)\*\*|__([^_]+)__`, leftmost match, first
alternative first; replacement styles `strings.Trim(match, "*_")` bold. -/
def processBold (styles : Styles) (s : Str) : Str :=
  match s with
  | [] => []
  | c :: rest =>
    match hm : tryBoldStars (c :: rest) with
    | some (m, rest') =>
      (styles.neon.bold true).render (goTrimSet ['*', '_'] m) ++
        processBold styles rest'
    | none =>
      match hm2 : tryBoldUnder (c :: rest) with
      | some (m, rest') =>
        (styles.neon.bold true).render (goTrimSet ['*', '_'] m) ++
          processBold styles rest'
      | none => c :: processBold styles rest
termination_by s.length
decreasing_by
  · exact tryBoldStars_shrink hm
  · exact tryBoldUnder_shrink hm2
  · simp only [List.length_cons]; omega

/-- One attempt of `\*([^*]+)\*` at the current position. -/
def tryItalic (s : Str) : Option (Str × Str) :=
  match s with
  | c :: t =>
    if c = '*' then
      match splitAtChar '*' t with
      | some (inner, after) =>
        if inner = [] then none else some ('*' :: (inner ++ ['*']), after)
      | none => none
    else none
  | [] => none

theorem tryItalic_shrink :
    ∀ {s m rest}, tryItalic s = some (m, rest) → rest.length < s.length := by
  intro s m rest h
  match s with
  | [] => simp [tryItalic] at h
  | c :: t =>
    simp only [tryItalic] at h
    by_cases hc : c = '*'
    swap
    · rw [if_neg hc] at h; simp at h
    · rw [if_pos hc] at h
      cases hsp : splitAtChar '*' t with
      | none => rw [hsp] at h; simp at h
      | some p =>
        obtain ⟨inner, after⟩ := p
        rw [hsp] at h
        simp only [] at h
        by_cases hi : inner = []
        · rw [if_pos hi] at h; simp at h
        · rw [if_neg hi] at h
          simp only [Option.some.injEq, Prod.mk.injEq] at h
          obtain ⟨_, h2⟩ := h
          subst h2
          have h1 := splitAtChar_shrink '*' hsp
          simp only [List.length_cons] at h1 ⊢
          omega

/-- `processItalic`: `\*([^*]+)\*`; the replacement keeps the match when the
trimmed inner text is empty (dead branch, mirrored from the source). -/
def processItalic (styles : Styles) (s : Str) : Str :=
  match s with
  | [] => []
  | c :: rest =>
    match hm : tryItalic (c :: rest) with
    | some (m, rest') =>
      (if goTrimSet ['*'] m = [] then m
        else (styles.muted.italic true).render (goTrimSet ['*'] m)) ++
        processItalic styles rest'
    | none => c :: processItalic styles rest
termination_by s.length
decreasing_by
  · exact tryItalic_shrink hm
  · simp only [List.length_cons]; omega

/-- One attempt of `\[([^\]]+)\]\(([^)]+)\)`: returns link text, url and the
remainder. -/
def tryLink (s : Str) : Option (Str × Str × Str) :=
  match s with
  | c :: t =>
    if c = '[' then
      match splitAtChar ']' t with
      | some (txt, after1) =>
        if txt = [] then none
        else
          match after1 with
          | a :: t2 =>
            if a = '(' then
              match splitAtChar ')' t2 with
              | some (url, after2) =>
                if url = [] then none else some (txt, url, after2)
              | none => none
            else none
          | [] => none
      | none => none
    else none
  | [] => none

theorem tryLink_shrink :
    ∀ {s txt url rest}, tryLink s = some (txt, url, rest) →
      rest.length < s.length := by
  intro s txt url rest h
  match s with
  | [] => simp [tryLink] at h
  | c :: t =>
    simp only [tryLink] at h
    by_cases hc : c = '['
    swap
    · rw [if_neg hc] at h; simp at h
    · rw [if_pos hc] at h
      cases hsp : splitAtChar ']' t with
      | none => rw [hsp] at h; simp at h
      | some p =>
        obtain ⟨ptxt, after1⟩ := p
        rw [hsp] at h
        simp only [] at h
        by_cases hi : ptxt = []
        · rw [if_pos hi] at h; simp at h
        · rw [if_neg hi] at h
          cases after1 with
          | nil => simp at h
          | cons a t2 =>
            simp only [] at h
            by_cases ha : a = '('
            swap
            · rw [if_neg ha] at h; simp at h
            · rw [if_pos ha] at h
              cases hsp2 : splitAtChar ')' t2 with
              | none => rw [hsp2] at h; simp at h
              | some q =>
                obtain ⟨purl, after2⟩ := q
                rw [hsp2] at h
                simp only [] at h
                by_cases hu : purl = []
                · rw [if_pos hu] at h; simp at h
                · rw [if_neg hu] at h
                  simp only [Option.some.injEq, Prod.mk.injEq] at h
                  obtain ⟨_, _, h3⟩ := h
                  subst h3
                  have h1 := splitAtChar_shrink ']' hsp
                  have h2 := splitAtChar_shrink ')' hsp2
                  simp only [List.length_cons] at h1 h2 ⊢
                  omega

/-- `processLinks`: `[text](url)` becomes underlined blue text plus a dim
` (url)` suffix. -/
def processLinks (styles : Styles) (s : Str) : Str :=
  match s with
  | [] => []
  | c :: rest =>
    match hm : tryLink (c :: rest) with
    | some (txt, url, rest') =>
      (styles.blue.underline true).render txt ++
        styles.dim.render (' ' :: '(' :: (url ++ [')'])) ++
        processLinks styles rest'
    | none => c :: processLinks styles rest
termination_by s.length
decreasing_by
  · exact tryLink_shrink hm
  · simp only [List.length_cons]; omega

/-- `MarkdownRenderer.renderInline`: code, then bold, then italic, then
links. -/
def renderInline (styles : Styles) (text : Str) : Str :=
  processLinks styles (processItalic styles (processBold styles
    (processInlineCode styles text)))

/-- Go regexp `\s` (the character class used by `^\d+\.\s`). -/
def reSpace (c : Char) : Bool :=
  c = ' ' || c = '\t' || c = '\n' || c = '\x0c' || c = '\r'

/-- `regexp.MatchString("^\d+\.\s", line)`. -/
def ordListMatch (line : Str) : Bool :=
  let ds := line.takeWhile Char.isDigit
  decide (ds ≠ []) &&
    match line.drop ds.length with
    | '.' :: c :: _ => reSpace c
    | _ => false

/-- `strings.SplitN(line, ". ", 2)`: split around the first `". "`. -/
def splitFirstDotSpace : Str → Option (Str × Str)
  | [] => none
  | '.' :: ' ' :: rest => some ([], rest)
  | c :: rest => (splitFirstDotSpace rest).map (fun p => (c :: p.1, p.2))

/-- `MarkdownRenderer.renderLine` (this revision: no wrapping). -/
def renderLine (styles : Styles) (line : Str) : Str :=
  if goStartsWith ("#### ").data line then
    styles.yellow.render ("▸ ").data ++
      styles.yellow.render (goTrimPfx ("#### ").data line)
  else if goStartsWith ("### ").data line then
    styles.cyan.render ("◆ ").data ++
      (styles.cyan.bold true).render (goTrimPfx ("### ").data line)
  else if goStartsWith ("## ").data line then
    styles.neon.render ("◈ ").data ++
      (styles.neon.bold true).render (goTrimPfx ("## ").data line)
  else if goStartsWith ("# ").data line then
    (styles.neon.bold true).render
      (("═══ ").data ++ goTrimPfx ("# ").data line ++ (" ═══").data)
  else if goStartsWith ("> ").data line then
    styles.dim.render ("┃ ").data ++
      (styles.muted.italic true).render (goTrimPfx ("> ").data line)
  else if line = ("---").data || line = ("***").data || line = ("___").data then
    styles.dim.render ("─────────────────────────────────────────").data
  else if goStartsWith ("- ").data line || goStartsWith ("* ").data line then
    styles.green.render ("  ▹ ").data ++ renderInline styles (line.drop 2)
  else if goStartsWith ("  - ").data line || goStartsWith ("  * ").data line then
    styles.cyan.render ("    ◦ ").data ++ renderInline styles (line.drop 4)
  else if ordListMatch line then
    match splitFirstDotSpace line with
    | some (num, text) =>
      styles.yellow.render ((' ' :: ' ' :: num) ++ ('.' :: ' ' :: [])) ++
        renderInline styles text
    | none => renderInline styles line
  else renderInline styles line

/-- The line loop of `MarkdownRenderer.Render` (fence toggling, table
grouping with one-line lookahead, everything else through `renderLine`). -/
def renderLoop (styles : Styles) : List Str → Bool → Str
  | [], _ => []
  | line :: rest, inCode =>
    if goStartsWith ("```").data line then
      if !inCode then
        (let lang := goTrimPfx ("```").data line
        styles.dim.render ("┌─").data ++
          (if lang ≠ [] then styles.cyan.render (' ' :: (lang ++ [' '])) else []) ++
          styles.dim.render ("─────────────────────────────────").data) ++
          '\n' :: renderLoop styles rest true
      else
        styles.dim.render ("└─────────────────────────────────────────").data ++
          '\n' :: renderLoop styles rest false
    else if inCode then
      styles.dim.render ("│ ").data ++ styles.green.render line ++
        '\n' :: renderLoop styles rest true
    else if isTableRow line &&
        (match rest with | l2 :: _ => isTableSeparator l2 | [] => false) then
      renderTable styles
          (line :: rest.takeWhile (fun l => isTableRow l || isTableSeparator l)) ++
        '\n' :: renderLoop styles
          (rest.dropWhile (fun l => isTableRow l || isTableSeparator l)) false
    else
      renderLine styles line ++ '\n' :: renderLoop styles rest false
termination_by ls => ls.length
decreasing_by
  · simp only [List.length_cons]; omega
  · simp only [List.length_cons]; omega
  · simp only [List.length_cons]; omega
  · simp only [List.length_cons]
    have := length_dropWhile_le (fun l => isTableRow l || isTableSeparator l) rest
    omega
  · simp only [List.length_cons]; omega

/-- `MarkdownRenderer.Render`. -/
def mdRender (styles : Styles) (text : Str) : Str :=
  goTrimSfx ['\n'] (renderLoop styles (goSplitChar '\n' text) false)

/-- The line loop of `RenderStreaming` (fence toggle, no table support). -/
def renderStreamLoop (styles : Styles) : List Str → Bool → Str
  | [], _ => []
  | line :: rest, inCode =>
    if goStartsWith ("```").data line then
      (if !inCode then
        let lang := goTrimPfx ("```").data line
        styles.dim.render ("┌─").data ++
          (if lang ≠ [] then styles.cyan.render (' ' :: (lang ++ [' '])) else []) ++
          styles.dim.render ("───────────────────────").data
      else
        styles.dim.render ("└───────────────────────────────").data) ++
        '\n' :: renderStreamLoop styles rest (!inCode)
    else if inCode then
      styles.dim.render ("│ ").data ++ styles.green.render line ++
        '\n' :: renderStreamLoop styles rest true
    else
      renderLine styles line ++ '\n' :: renderStreamLoop styles rest false

/-- `MarkdownRenderer.RenderStreaming`. -/
def mdRenderStreaming (styles : Styles) (text : Str) : Str :=
  goTrimSfx ['\n'] (renderStreamLoop styles (goSplitChar '\n' text) false)

/-!
### Static views (`ui/views.go`)
-/

/-- `center`: pad left so the text is horizontally centred. -/
def center (text : Str) (width : Int) : Str :=
  if width ≤ (visWidth text : Int) then text
  else goRepeat [' '] ((width - (visWidth text : Int)) / 2) ++ text

/-- `box`: a titled box of `min 60 (width-8)` columns.  (Go's byte slice
`title[:min(len(title), titleLen)]` panics for extremely narrow widths where
`titleLen` is negative; the model clamps with `toNat`, and no theorem below
evaluates `box` at such widths.) -/
def box (title : Str) (content : List Str) (styles : Styles) (width : Int) : Str :=
  let boxWidth := min 60 (width - 8)
  let innerWidth := boxWidth - 4
  let titleLen := min (title.length : Int) (innerWidth - 4)
  let titlePad0 := (innerWidth - titleLen) / 2
  let titlePad := if titlePad0 < 1 then 1 else titlePad0
  let top := styles.cyan.render ['┌'] ++
    styles.dim.render (goRepeat ['─'] titlePad) ++
    (styles.cyan.bold true).render
      (' ' :: (title.take (min (title.length : Int) titleLen).toNat ++ [' '])) ++
    styles.dim.render (goRepeat ['─'] (max 1 (innerWidth - titlePad - titleLen))) ++
    styles.cyan.render ['┐']
  let rows := (content.map (fun line =>
    let padding := max 0 (innerWidth - (visWidth line : Int))
    center (styles.dim.render ('│' :: [' ']) ++ line ++ goRepeat [' '] padding ++
      styles.dim.render (' ' :: ['│'])) width ++ ['\n'])).flatten
  let bottom := styles.cyan.render ['└'] ++
    styles.dim.render (goRepeat ['─'] (innerWidth + 2)) ++ styles.cyan.render ['┘']
  center top width ++ '\n' :: (rows ++ center bottom width)

/-- `content.Project` (fields read by the embedded views; `Links` is
flattened into `demo`/`github`). -/
structure Project where
  id : Str
  name : Str
  description : Str
  status : Str
  tech : List Str
  demo : Str
  github : Str
deriving DecidableEq

/-- `content.Projects`. -/
structure Projects where
  projects : List Project
deriving DecidableEq

/-- `Projects.GetProjectByID` (package content): the loop returns a pointer
to the first project whose `ID` equals `id`, and `nil` when none matches —
here `some` of the first match via `find?`, and `none` otherwise. -/
def getProjectByID (ps : Projects) (id : Str) : Option Project :=
  ps.projects.find? (fun p => decide (p.id = id))

/-- The `colorCycle[i%4]` used for tech tags. -/
def techColor (styles : Styles) (i : Nat) : GoStyle :=
  match i % 4 with
  | 0 => styles.cyan
  | 1 => styles.neon
  | 2 => styles.green
  | _ => styles.yellow

/-- The tech-tag loop of `ProjectDetail`. -/
def techTags (styles : Styles) : List Str → Nat → Str
  | [], _ => []
  | tech :: rest, i =>
    (techColor styles i).render ('⟨' :: (tech ++ ['⟩'])) ++ ' ' ::
      techTags styles rest (i + 1)

/-- The 45-column description wrap loop of `ProjectDetail` (flush before
adding a word that would overflow). -/
def descWrapLoop (styles : Styles) : List Str → Str → List Str
  | [], line => if line ≠ [] then [styles.body.render (' ' :: ' ' :: line)] else []
  | word :: rest, line =>
    let flushed := 45 < ((line.length : Int) + (word.length : Int))
    let pre := if flushed then [styles.body.render (' ' :: ' ' :: line)] else []
    let line1 := if flushed then [] else line
    let line2 := (if line1 ≠ [] then line1 ++ [' '] else line1) ++ word
    pre ++ descWrapLoop styles rest line2

/-- `ProjectDetail`: the nil-project guard renders a centred
`⚠ PROJECT_NOT_FOUND`, otherwise a box with status, description, tech and
links. -/
def projectDetail (styles : Styles) (project : Option Project) (width : Int) : Str :=
  match project with
  | none => center (styles.red.render ("⚠ PROJECT_NOT_FOUND").data) width
  | some project =>
    let statusLine :=
      if project.status = ("active").data then
        styles.dim.render ("STATUS: ").data ++
          (styles.green.bold true).render ("● ACTIVE").data
      else if project.status = ("completed").data then
        styles.dim.render ("STATUS: ").data ++
          (styles.cyan.bold true).render ("◈ ARCHIVED").data
      else
        styles.dim.render ("STATUS: ").data ++
          (styles.yellow.bold true).render ("○ IN_PROGRESS").data
    let descLines := descWrapLoop styles (goFields project.description) []
    let techLine := ' ' :: ' ' :: techTags styles project.tech 0
    let linkLines :=
      if project.demo ≠ [] ∨ project.github ≠ [] then
        [(styles.yellow.bold true).render ("◈ LINKS").data] ++
        (if project.demo ≠ [] then
          [styles.dim.render ("  DEMO:   ").data ++ styles.link.render project.demo]
        else []) ++
        (if project.github ≠ [] then
          [styles.dim.render ("  SOURCE: ").data ++ styles.link.render project.github]
        else [])
      else []
    let lines := [statusLine, []] ++
      [(styles.cyan.bold true).render ("◈ DESCRIPTION").data] ++ descLines ++ [[]] ++
      [(styles.green.bold true).render ("◈ TECH_STACK").data] ++ [techLine, []] ++
      linkLines
    '\n' :: (box project.name lines styles width ++ ['\n'])

/-- `WelcomeMessage`: banner, separator and the command box. -/
def welcomeMessage (styles : Styles) (width : Int) : Str :=
  let cmdLines : List Str :=
    [styles.green.render ("/about").data ++ styles.dim.render ("    ─ ").data ++
      styles.muted.render ("view profile data").data,
    styles.yellow.render ("/projects").data ++ styles.dim.render (" ─ ").data ++
      styles.muted.render ("browse projects").data,
    styles.neon.render ("/resume").data ++ styles.dim.render ("   ─ ").data ++
      styles.muted.render ("credentials file").data,
    styles.purple.render ("/help").data ++ styles.dim.render ("     ─ ").data ++
      styles.muted.render ("system commands").data,
    [],
    styles.cyan.render ("or just type to chat with AI").data]
  '\n' :: '\n' ::
    (center ((styles.neon.bold true).render ("╔╦╗╔═╗╦ ╦╔═╗╦╔═ ╔═╗╦ ╦").data) width ++ '\n' ::
    (center ((styles.cyan.bold true).render ("║║║║ ║╠═╣╠═╣╠╩╗ ╚═╗╠═╣").data) width ++ '\n' ::
    (center ((styles.neon.bold true).render ("╩ ╩╚═╝╩ ╩╩ ╩╩ ╩o╚═╝╩ ╩").data) width ++ '\n' ::
    '\n' ::
    (center (styles.dim.render ("▓▒░░░░░░░░░░░░░░░░░░░░░░░░░░░░░░░░░░░▒▓").data) width ++
    '\n' :: '\n' ::
    (box ("COMMANDS").data cmdLines styles width ++ ['\n'])))))

/-- `ui.ChatMessage`: one finalized chat message, boxed; assistant content
goes through `MarkdownRenderer.Render`. -/
def uiChatMessage (styles : Styles) (role content : Str) (width : Int) : Str :=
  if role = ("user").data then
    (styles.cyan.bold true).render ("┌─ YOU ────────────────────────────").data ++
      '\n' :: (styles.dim.render ("│ ").data ++ styles.body.render content ++
      '\n' :: (styles.dim.render ("└──────────────────────────────────").data ++
      ['\n']))
  else
    (styles.neon.bold true).render ("┌─ MOHAK.AI ───────────────────────").data ++
      '\n' :: (((goSplitChar '\n' (mdRender styles content)).map
        (fun l => styles.dim.render ("│ ").data ++ l ++ ['\n'])).flatten ++
      (styles.dim.render ("└──────────────────────────────────").data ++ ['\n']))

/-- `ui.StreamingMessage`: the live box around the partial response;
content goes through `RenderStreaming`. -/
def streamingMessage (styles : Styles) (content : Str) (width : Int) : Str :=
  (styles.neon.bold true).render ("┌─ MOHAK.AI ").data ++
    styles.neon.render ("▓▒░ streaming ░▒▓").data ++ '\n' ::
    ((if content ≠ [] then
      ((goSplitChar '\n' (mdRenderStreaming styles content)).map
        (fun l => styles.dim.render ("│ ").data ++ l ++ ['\n'])).flatten ++
        styles.dim.render ("│ ").data ++ styles.neon.render ("▌").data
    else
      styles.dim.render ("│ ").data ++ styles.neon.render ("▓▒░ ").data ++
        styles.muted.render ("initializing...").data ++
        styles.neon.render (" ░▒▓").data) ++
    '\n' :: (styles.dim.render ("└──────────────────────────────────").data ++ ['\n']))

/-!
### The session state machine (`app/model.go`)

`Model` keeps the fields the Go struct mutates.  External Bubble Tea
components are modelled by their observable state: the `textinput` by its
value (printable keys and pastes append to it, nothing else changes it), the
`viewport` not at all (`updateViewport` recomputes its content from the
fields modelled here — see `buildChatView` and the view renderers — and
changes no modelled field).  `streamCancel != nil` is `hasCancel`, an invoked
cancel function is `cancelCalled`, and non-nil `chunkChan`/`errChan` are
`chunkChanSet`/`errChanSet`.
-/

/-- The `View` enum. -/
inductive View where
  | chat
  | help
  | about
  | projectsList
  | projectDetail
  | resume
  | experience
deriving DecidableEq

/-- `ChatMessage` of the app model. -/
structure ChatMessage where
  role : Str
  content : Str
deriving DecidableEq

/-- The modelled fields of `app.Model`. -/
structure Model where
  width : Int
  height : Int
  view : View
  selectedProj : Str
  errorMessage : Str
  statusMessage : Str
  input : Str
  chatHistory : List ChatMessage
  chatResponse : Str
  isStreaming : Bool
  showWelcome : Bool
  hasAIClient : Bool
  hasCancel : Bool
  cancelCalled : Bool
  chunkChanSet : Bool
  errChanSet : Bool
  mouseEnabled : Bool
  quitting : Bool
  projects : Projects
deriving DecidableEq

/-- The messages `Update` handles (`tea.KeyMsg` variants and the app's own
message types). -/
inductive Msg where
  | keyEnter
  | keyEsc
  | keyCtrlC
  | keyChar (c : Char)
  | paste (s : Str)
  | ctrlS
  | ctrlH
  | ctrlA
  | ctrlP
  | ctrlR
  | ctrlE
  | ctrlW
  | ctrlL
  | ctrlQ
  | streamChunk (chunk : Str)
  | streamDone (error : Option Str)
  | clearStatus
  | quitMsg
  | windowSize (w h : Int)
deriving DecidableEq

/-- The commands `Update` returns (`tea.Cmd` values, by effect). -/
inductive CmdE where
  | listenChunks
  | tickClearStatus
  | tickQuit
  | enableMouse
  | disableMouse
  | quit
deriving DecidableEq

/-- A placeholder project for the (guarded) indexed access in the digit
shortcut. -/
def emptyProject : Project :=
  { id := [], name := [], description := [], status := [], tech := [],
    demo := [], github := [] }

/-- `Model.sendChatMessage`: append the user message, flip into streaming
state, create the cancel context and the channels, spawn the worker and
listen for the first chunk. -/
def sendChatMessage (m : Model) (message : Str) : Model × List CmdE :=
  if !m.hasAIClient then ({ m with errorMessage := ("AI not available").data }, [])
  else
    ({ m with
        view := .chat, showWelcome := false,
        chatHistory := m.chatHistory ++ [({ role := ("user").data, content := message } : ChatMessage)],
        isStreaming := true, chatResponse := [],
        hasCancel := true, cancelCalled := false,
        chunkChanSet := true, errChanSet := true }, [.listenChunks])

/-- `Model.handleSlashCommand`.  (`parts[0]` on an all-space input would
panic in Go; callers only pass trimmed non-empty input, the `[]` case is
unreachable.) -/
def handleSlashCommand (m : Model) (input : Str) : Model × List CmdE :=
  match goFields input with
  | [] => (m, [])
  | cmd0 :: args =>
    let command := goToLower cmd0
    if command = ("/help").data ∨ command = ("/h").data ∨ command = ("/?").data then
      ({ m with view := .help, showWelcome := false }, [])
    else if command = ("/about").data ∨ command = ("/bio").data then
      ({ m with view := .about, showWelcome := false }, [])
    else if command = ("/projects").data ∨ command = ("/p").data then
      ({ m with view := .projectsList, showWelcome := false }, [])
    else if command = ("/open").data ∨ command = ("/o").data then
      match args with
      | [] => ({ m with errorMessage := ("Usage: /open <project-id>").data }, [])
      | id :: _ =>
        if getProjectByID m.projects id = none then
          ({ m with
              selectedProj := id,
              errorMessage := ("Project not found: ").data ++ id }, [])
        else
          ({ m with
              selectedProj := id, view := .projectDetail,
              showWelcome := false }, [])
    else if command = ("/resume").data ∨ command = ("/cv").data ∨
        command = ("/r").data then
      ({ m with view := .resume, showWelcome := false }, [])
    else if command = ("/exp").data ∨ command = ("/experience").data ∨
        command = ("/work").data then
      ({ m with view := .experience, showWelcome := false }, [])
    else if command = ("/clear").data ∨ command = ("/cls").data then
      ({ m with
          view := .chat, chatHistory := [], showWelcome := true,
          errorMessage := [], statusMessage := [] }, [])
    else if command = ("/exit").data ∨ command = ("/quit").data ∨
        command = ("/q").data then
      ({ m with quitting := true }, [.tickQuit])
    else if command = ("/back").data ∨ command = ("/b").data then
      ({ m with view := .chat }, [])
    else
      ({ m with errorMessage := ("Unknown command: ").data ++ command }, [])

/-- `Model.handleInput`. -/
def handleInput (m : Model) (input : Str) : Model × List CmdE :=
  if goStartsWith ['/'] input then handleSlashCommand m input
  else sendChatMessage m input

/-- `Model.Update`. -/
def update (m : Model) (msg : Msg) : Model × List CmdE :=
  match msg with
  | .paste s => ({ m with input := m.input ++ s }, [])
  | .keyCtrlC =>
    let m1 := if m.hasCancel then { m with cancelCalled := true } else m
    ({ m1 with quitting := true }, [.tickQuit])
  | .keyEnter =>
    if m.isStreaming then (m, [])
    else
      let inputT := goTrimSpace m.input
      let m1 := { m with input := [], errorMessage := [], statusMessage := [] }
      if inputT = [] then (m1, [])
      else handleInput m1 inputT
  | .keyEsc =>
    if m.isStreaming && m.hasCancel then
      let m1 := { m with cancelCalled := true, isStreaming := false }
      let m2 := if m1.chatResponse ≠ [] then
          { m1 with
            chatHistory := m1.chatHistory ++
              [({ role := ("assistant").data, content := m1.chatResponse } : ChatMessage)],
            chatResponse := [] }
        else m1
      (m2, [])
    else if m.view ≠ .chat then
      ({ m with
          view := .chat,
          showWelcome := if m.chatHistory = [] then true else m.showWelcome }, [])
    else (m, [])
  | .ctrlS =>
    if !m.mouseEnabled then
      ({ m with
          mouseEnabled := true,
          statusMessage := ("Mouse ON (scroll mode)").data },
        [.enableMouse, .tickClearStatus])
    else
      ({ m with
          mouseEnabled := false,
          statusMessage := ("Mouse OFF (select mode)").data }, [.disableMouse])
  | .ctrlH => ({ m with view := .help }, [])
  | .ctrlA => ({ m with view := .about }, [])
  | .ctrlP => ({ m with view := .projectsList, selectedProj := [] }, [])
  | .ctrlR => ({ m with view := .resume }, [])
  | .ctrlE => ({ m with view := .experience }, [])
  | .ctrlW => ({ m with
      view := .chat,
      showWelcome := decide (m.chatHistory = []) }, [])
  | .ctrlL => ({ m with
      chatHistory := [], showWelcome := true, view := .chat,
      errorMessage := [], statusMessage := [] }, [])
  | .ctrlQ => ({ m with quitting := true }, [.tickQuit])
  | .keyChar c =>
    if m.view = .projectsList ∧ m.input = [] ∧ '1' ≤ c ∧ c ≤ '9' then
      let idx := c.toNat - '1'.toNat
      if idx < m.projects.projects.length then
        ({ m with
            selectedProj := (m.projects.projects.getD idx emptyProject).id,
            view := .projectDetail }, [])
      else ({ m with input := m.input ++ [c] }, [])
    else ({ m with input := m.input ++ [c] }, [])
  | .clearStatus => ({ m with statusMessage := [] }, [])
  | .quitMsg => (m, [.quit])
  | .windowSize w h => ({ m with width := w, height := h }, [])
  | .streamChunk chunk =>
    let m1 := { m with chatResponse := m.chatResponse ++ chunk }
    if m1.chunkChanSet then (m1, [.listenChunks]) else (m1, [])
  | .streamDone err =>
    let m1 := { m with isStreaming := false }
    let m2 :=
      match err with
      | some e => { m1 with errorMessage := e }
      | none =>
        if m1.chatResponse ≠ [] then
          { m1 with
            chatHistory := m1.chatHistory ++
              [({ role := ("assistant").data, content := m1.chatResponse } : ChatMessage)] }
        else m1
    ({ m2 with chatResponse := [], chunkChanSet := false, errChanSet := false }, [])

/-- `Model.buildChatView`: welcome banner, finalized history, live streaming
box. -/
def buildChatView (styles : Styles) (m : Model) : Str :=
  (if m.showWelcome ∧ m.chatHistory = [] then welcomeMessage styles m.width
    else []) ++
  (m.chatHistory.map
    (fun msg => uiChatMessage styles msg.role msg.content m.width ++ ['\n'])).flatten ++
  (if m.isStreaming then streamingMessage styles m.chatResponse m.width else [])

/-- `MarkdownRenderer` of this revision: only the styles, no other state. -/
structure MarkdownRenderer where
  styles : Styles

/-- `NewMarkdownRenderer`. -/
def NewMarkdownRenderer (styles : Styles) : MarkdownRenderer := ⟨styles⟩

/-- State-passing form of `Render`: the method reads `r.styles` and writes
no field, so the returned receiver is the argument. -/
def MarkdownRenderer.renderM (r : MarkdownRenderer) (text : Str) :
    Str × MarkdownRenderer :=
  (mdRender r.styles text, r)

/-- State-passing form of `RenderStreaming`. -/
def MarkdownRenderer.renderStreamingM (r : MarkdownRenderer) (text : Str) :
    Str × MarkdownRenderer :=
  (mdRenderStreaming r.styles text, r)

/-- Concrete instantiation of `truncateText_spec`. -/
theorem truncateText_spec_witness :
    truncateText ("ab").data 2 = ['.', '.', '.'] ∧
    (visWidth (truncateText ("hello world").data 7) : Int) ≤ 7 ∧
    ∃ pre, truncateText ("\x1b[36mhello world\x1b[0m").data 7 =
      pre ++ ('.' :: '.' :: '.' :: resetSeq) := by
  refine ⟨(truncateText_spec ("ab").data 2).1 (by norm_num),
    (truncateText_spec ("hello world").data 7).2.1 (by norm_num),
    (truncateText_spec ("\x1b[36mhello world\x1b[0m").data 7).2.2
      (by norm_num) (by decide) (by decide)⟩

/-!
### Helper definitions and lemmas for the claim theorems
-/

/-- A session in mid-stream: the streaming flag is set, the cancel context is
live, both channels are open, and a partial assistant buffer has accumulated. -/
def demoStreamingModel : Model :=
  { width := 80, height := 24, view := .chat, selectedProj := [],
    errorMessage := [], statusMessage := [], input := ("draft").data,
    chatHistory := [({ role := ("user").data, content := ("hi").data } : ChatMessage)],
    chatResponse := ("Hello").data, isStreaming := true, showWelcome := false,
    hasAIClient := true, hasCancel := true, cancelCalled := false,
    chunkChanSet := true, errChanSet := true, mouseEnabled := false,
    quitting := false, projects := ⟨[]⟩ }

/-- An idle session with no loaded projects. -/
def demoIdleModel : Model :=
  { width := 80, height := 24, view := .chat, selectedProj := [],
    errorMessage := [], statusMessage := [], input := [],
    chatHistory := [], chatResponse := [], isStreaming := false,
    showWelcome := true, hasAIClient := true, hasCancel := false,
    cancelCalled := false, chunkChanSet := false, errChanSet := false,
    mouseEnabled := false, quitting := false, projects := ⟨[]⟩ }

/-- A session variant that differs from `demoStreamingModel` only in fields
`buildChatView` does not read. -/
def demoViewModelA : Model :=
  { demoStreamingModel with errorMessage := ("E1").data, view := .help }

/-- A second such variant, differing in other unread fields. -/
def demoViewModelB : Model :=
  { demoStreamingModel with statusMessage := ("busy").data, input := ("other").data }

/-- The code-fence state after the streaming loop has consumed a list of
lines: each line starting with the fence marker toggles it. -/
def streamFenceState : List Str → Bool → Bool
  | [], st => st
  | l :: rest, st =>
    streamFenceState rest (if goStartsWith ("```").data l then !st else st)

theorem renderStreamLoop_append (styles : Styles) (a b : List Str) :
    ∀ st : Bool, renderStreamLoop styles (a ++ b) st =
      renderStreamLoop styles a st ++
        renderStreamLoop styles b (streamFenceState a st) := by
  induction a with
  | nil => intro st; simp [renderStreamLoop, streamFenceState]
  | cons l rest ih =>
    intro st
    cases st <;> by_cases hf : goStartsWith ("```").data l = true <;>
      simp [renderStreamLoop, streamFenceState, hf, ih]

theorem renderStreamLoop_code (styles : Styles) (ls : List Str)
    (h : ∀ l ∈ ls, goStartsWith ("```").data l = false) :
    renderStreamLoop styles ls true =
      (ls.map (fun l => styles.dim.render ("│ ").data ++
        styles.green.render l ++ ['\n'])).flatten := by
  induction ls with
  | nil => simp [renderStreamLoop]
  | cons l rest ih =>
    have hl := h l (List.mem_cons_self l rest)
    have hr : ∀ x ∈ rest, goStartsWith ("```").data x = false :=
      fun x hx => h x (List.mem_cons_of_mem l hx)
    simp [renderStreamLoop, hl, ih hr]

theorem flatten_map_singleton {α : Type} (xs : List α) :
    (xs.map (fun x => [x])).flatten = xs := by
  induction xs with
  | nil => rfl
  | cons x xs ih => simp [ih]

theorem goSplitNl_joinNl_inv (xs : List Str) (hne : xs ≠ [])
    (h : ∀ l ∈ xs, '\n' ∉ l) :
    goSplitChar '\n' (joinNl xs) = xs := by
  rw [goSplitNl_joinNl xs hne]
  have hmap : xs.map (goSplitChar '\n') = xs.map (fun l => [l]) :=
    List.map_congr_left (fun l hl => goSplitChar_single (h l hl))
  rw [hmap, flatten_map_singleton]

theorem foldl_zipWith_length (rows : List (List Str)) :
    ∀ acc : List Int, (∀ r ∈ rows, r.length = acc.length) →
      (rows.foldl
        (fun acc row => acc.zipWith max (row.map (fun c => (c.length : Int))))
        acc).length = acc.length := by
  induction rows with
  | nil => intro acc _; rfl
  | cons r rows ih =>
    intro acc h
    have hr : r.length = acc.length := h r (List.mem_cons_self r rows)
    have hzlen : (acc.zipWith max (r.map (fun c => (c.length : Int)))).length
        = acc.length := by
      rw [List.length_zipWith, List.length_map, hr, Nat.min_self]
    rw [List.foldl_cons,
      ih _ (by intro x hx; rw [hzlen]; exact h x (List.mem_cons_of_mem r hx)),
      hzlen]

theorem foldl_zipWith_getD (rows : List (List Str)) :
    ∀ (acc : List Int) (i : Nat), i < acc.length →
      (∀ r ∈ rows, r.length = acc.length) →
      (rows.foldl
        (fun acc row => acc.zipWith max (row.map (fun c => (c.length : Int))))
        acc).getD i 0
      = rows.foldl (fun a row => max a ((row.getD i []).length : Int))
          (acc.getD i 0) := by
  induction rows with
  | nil => intro acc i hi h; rfl
  | cons r rows ih =>
    intro acc i hi h
    have hr : r.length = acc.length := h r (List.mem_cons_self r rows)
    have hzlen : (acc.zipWith max (r.map (fun c => (c.length : Int)))).length
        = acc.length := by
      rw [List.length_zipWith, List.length_map, hr, Nat.min_self]
    have hi3 : i < r.length := by rw [hr]; exact hi
    have hstep : (acc.zipWith max (r.map (fun c => (c.length : Int)))).getD i 0
        = max (acc.getD i 0) ((r.getD i []).length : Int) := by
      have hi2 : i < (acc.zipWith max (r.map (fun c => (c.length : Int)))).length := by
        rw [hzlen]; exact hi
      rw [List.getD_eq_getElem _ (0 : Int) hi2, List.getElem_zipWith,
        List.getD_eq_getElem _ (0 : Int) hi, List.getElem_map,
        List.getD_eq_getElem _ ([] : Str) hi3]
    rw [List.foldl_cons, List.foldl_cons,
      ih _ i (by rw [hzlen]; exact hi)
        (by intro x hx; rw [hzlen]; exact h x (List.mem_cons_of_mem r hx)),
      hstep]

/-- Written from the spec's words, for comparison with `tableColWidths`: each
column's width is the maximum cell length over header and data rows, plus 2
padding, with a floor of 5 — computed from the cell contents alone. -/
def specColWidth (header : List Str) (dataRows : List (List Str)) (i : Nat) : Int :=
  max ((dataRows.foldl (fun a row => max a ((row.getD i []).length : Int))
    ((header.getD i []).length : Int)) + 2) 5

/-- A table whose first header cell holds a 100-rune word. -/
def wideTableLines : List Str :=
  [("| ").data ++ List.replicate 100 'A' ++ (" | B |").data,
   ("|---|---|").data,
   ("| 1 | 2 |").data]

/-!
### Claim theorems
-/

/-- C1, counterexample: on `StreamDoneMsg` with a non-nil error the partial
assistant content is discarded, not appended.  `demoStreamingModel` is
mid-stream with the non-empty buffer `"Hello"`; after `StreamDoneMsg{Error:
"boom"}` the error is surfaced in `errorMessage`, but the chat history is
exactly the one from before (no finalized assistant message) and the buffer
is reset — refuting the claimed preservation of partial content. -/
theorem streamError_claim_counterexample :
    demoStreamingModel.chatResponse ≠ [] ∧
    (update demoStreamingModel (.streamDone (some (("boom").data)))).1.errorMessage
      = ("boom").data ∧
    (update demoStreamingModel (.streamDone (some (("boom").data)))).1.chatHistory
      = demoStreamingModel.chatHistory ∧
    (update demoStreamingModel (.streamDone (some (("boom").data)))).1.chatResponse
      = [] := by
  decide

/-- C1, amended: on a stream error (`StreamDoneMsg` carrying a non-nil
error), for every streaming session with a non-empty response buffer, the
error string is stored in `errorMessage` (the view's footer renders it as a
transient error), streaming stops — but the partial assistant content is
DISCARDED: the chat history is left unchanged and the response buffer is
reset. -/
theorem streamError_amended (m : Model) (e : Str)
    (h1 : m.isStreaming = true) (h2 : m.chatResponse ≠ []) :
    (update m (.streamDone (some e))).1.errorMessage = e ∧
    (update m (.streamDone (some e))).1.chatHistory = m.chatHistory ∧
    (update m (.streamDone (some e))).1.chatResponse = [] ∧
    (update m (.streamDone (some e))).1.isStreaming = false :=
  ⟨rfl, rfl, rfl, rfl⟩

/-- Concrete instantiation of `streamError_amended`. -/
theorem streamError_amended_witness :
    (update demoStreamingModel (.streamDone (some (("boom").data)))).1.errorMessage
      = ("boom").data ∧
    (update demoStreamingModel (.streamDone (some (("boom").data)))).1.chatHistory
      = demoStreamingModel.chatHistory ∧
    (update demoStreamingModel (.streamDone (some (("boom").data)))).1.chatResponse
      = [] ∧
    (update demoStreamingModel (.streamDone (some (("boom").data)))).1.isStreaming
      = false :=
  streamError_amended demoStreamingModel (("boom").data) rfl (by decide)

/-- C2, counterexample: after Escape cancels the stream (cancel invoked,
streaming flag cleared — the cancellation is observed), a `StreamChunkMsg`
still in flight IS appended to the session's assistant response buffer,
because the chunk channel is never cleared and the `StreamChunkMsg` case
appends unconditionally (and even keeps listening for more chunks) —
refuting "no further fragment is ever appended". -/
theorem cancelStream_claim_counterexample :
    (update demoStreamingModel .keyEsc).1.isStreaming = false ∧
    (update demoStreamingModel .keyEsc).1.cancelCalled = true ∧
    (update (update demoStreamingModel .keyEsc).1
      (.streamChunk ((" world").data))).1.chatResponse = (" world").data ∧
    (" world").data ≠ ([] : Str) ∧
    (update (update demoStreamingModel .keyEsc).1
      (.streamChunk ((" world").data))).2 = [.listenChunks] := by
  decide

/-- C2, amended: pressing Escape while streaming with a live cancel context
invokes cancel, clears the streaming flag, appends the non-empty accumulated
buffer to the chat history as a finalized assistant message and resets the
buffer.  (The claim's "no further fragment is ever appended after
cancellation is observed" fails: the chunk channel is not cleared, so a
chunk message still in flight is appended to the now-empty buffer.) -/
theorem cancelStream_amended (m : Model)
    (h1 : m.isStreaming = true) (h2 : m.hasCancel = true)
    (h3 : m.chatResponse ≠ []) :
    (update m .keyEsc).1.cancelCalled = true ∧
    (update m .keyEsc).1.isStreaming = false ∧
    (update m .keyEsc).1.chatHistory = m.chatHistory ++
      [({ role := ("assistant").data, content := m.chatResponse } : ChatMessage)] ∧
    (update m .keyEsc).1.chatResponse = [] := by
  simp [update, h1, h2, h3]

/-- Concrete instantiation of `cancelStream_amended`. -/
theorem cancelStream_amended_witness :
    (update demoStreamingModel .keyEsc).1.cancelCalled = true ∧
    (update demoStreamingModel .keyEsc).1.isStreaming = false ∧
    (update demoStreamingModel .keyEsc).1.chatHistory =
      demoStreamingModel.chatHistory ++
        [({ role := ("assistant").data,
            content := demoStreamingModel.chatResponse } : ChatMessage)] ∧
    (update demoStreamingModel .keyEsc).1.chatResponse = [] :=
  cancelStream_amended demoStreamingModel rfl rfl (by decide)

/-- C10: while a stream is in flight, Enter changes nothing — `Update`
returns the model unchanged (input buffer, chat history, streaming flag all
kept) and issues no command, so no new stream is started; and the streaming
flag is only ever cleared by `StreamDoneMsg` (completion or error) or by
Escape (cancellation), so free-text submission becomes possible again only
through those paths. -/
theorem enterDuringStream_noop :
    (∀ m : Model, m.isStreaming = true → update m .keyEnter = (m, [])) ∧
    (∀ (m : Model) (msg : Msg), m.isStreaming = true → msg ≠ .keyEsc →
      (∀ e, msg ≠ .streamDone e) → ((update m msg).1).isStreaming = true) := by
  constructor
  · intro m h
    simp [update, h]
  · intro m msg h hesc hdone
    cases msg with
    | keyEsc => exact absurd rfl hesc
    | streamDone e => exact absurd rfl (hdone e)
    | keyEnter => simp [update, h]
    | keyCtrlC => simp only [update]; split <;> exact h
    | ctrlS => simp only [update]; split <;> exact h
    | keyChar c => simp only [update]; split <;> (try split) <;> exact h
    | streamChunk s => simp only [update]; split <;> exact h
    | paste s => exact h
    | ctrlH => exact h
    | ctrlA => exact h
    | ctrlP => exact h
    | ctrlR => exact h
    | ctrlE => exact h
    | ctrlW => exact h
    | ctrlL => exact h
    | ctrlQ => exact h
    | clearStatus => exact h
    | quitMsg => exact h
    | windowSize w hw => exact h

/-- Concrete instantiation of `enterDuringStream_noop`. -/
theorem enterDuringStream_noop_witness :
    update demoStreamingModel .keyEnter = (demoStreamingModel, []) ∧
    ((update demoStreamingModel (.keyChar 'x')).1).isStreaming = true :=
  ⟨enterDuringStream_noop.1 demoStreamingModel rfl,
   enterDuringStream_noop.2 demoStreamingModel (.keyChar 'x') rfl
     (by decide) (fun e hc => Msg.noConfusion hc)⟩

/-- C7: submitting `/open <id>` for an unknown id (the `GetProjectByID`
lookup returns `none`) does not change the view, sets the error message
`Project not found: <id>`, and issues no command; and `ProjectDetail` of an
unresolved project renders the centred `⚠ PROJECT_NOT_FOUND` message rather
than failing. -/
theorem openUnknownProject_spec :
    (∀ (m : Model) (id : Str), id ≠ [] → (∀ c ∈ id, goIsSpace c = false) →
      getProjectByID m.projects id = none →
      (handleSlashCommand m (("/open ").data ++ id)).1.view = m.view ∧
      (handleSlashCommand m (("/open ").data ++ id)).1.errorMessage =
        ("Project not found: ").data ++ id ∧
      (handleSlashCommand m (("/open ").data ++ id)).2 = []) ∧
    (∀ (styles : Styles) (width : Int),
      projectDetail styles none width =
        center (styles.red.render ("⚠ PROJECT_NOT_FOUND").data) width) := by
  constructor
  · intro m id hne hns hnone
    have hstep : goFields (("/open").data ++ (' ' :: id)) =
        ("/open").data :: goFields (' ' :: id) :=
      goFields_word_prepend (by decide) (by decide)
        (Or.inr ⟨' ', id, rfl, by decide⟩)
    have hid : goFields (id ++ ([] : Str)) = id :: goFields [] :=
      goFields_word_prepend hne hns (Or.inl rfl)
    rw [List.append_nil] at hid
    have hfields : goFields (("/open ").data ++ id) = [("/open").data, id] := by
      have hsplit : ("/open ").data ++ id = ("/open").data ++ (' ' :: id) := rfl
      rw [hsplit, hstep, goFields_cons_space (c := ' ') id (by decide), hid,
        goFields_nil]
    have hrw : handleSlashCommand m (("/open ").data ++ id) =
        ({ m with
            selectedProj := id,
            errorMessage := ("Project not found: ").data ++ id }, []) := by
      unfold handleSlashCommand
      rw [hfields]
      simp [goToLower, hnone]
    rw [hrw]
    exact ⟨rfl, rfl, rfl⟩
  · intro styles width
    rfl

/-- Concrete instantiation of `openUnknownProject_spec`. -/
theorem openUnknownProject_spec_witness :
    (handleSlashCommand demoIdleModel (("/open ").data ++ ("demo").data)).1.view
      = demoIdleModel.view ∧
    (handleSlashCommand demoIdleModel
      (("/open ").data ++ ("demo").data)).1.errorMessage
      = ("Project not found: ").data ++ ("demo").data ∧
    (handleSlashCommand demoIdleModel (("/open ").data ++ ("demo").data)).2 = [] ∧
    projectDetail demoStyles none 80 =
      center (demoStyles.red.render ("⚠ PROJECT_NOT_FOUND").data) 80 := by
  obtain ⟨h1, h2, h3⟩ := openUnknownProject_spec.1 demoIdleModel (("demo").data)
    (by decide) (by decide) (by decide)
  exact ⟨h1, h2, h3, openUnknownProject_spec.2 demoStyles 80⟩

/-- C8: the markdown renderer is deterministic and stateless — `Render` and
`RenderStreaming` leave the receiver unchanged (the struct holds only the
styles configuration, no hidden mutable state), re-rendering the same text
yields a byte-identical string, and `buildChatView` reads only the welcome
flag, the chat history, the streaming flag, the response buffer and the
width: sessions agreeing on those render byte-identically. -/
theorem markdownRender_deterministic :
    (∀ (r : MarkdownRenderer) (t : Str),
      (r.renderM t).2 = r ∧ (r.renderStreamingM t).2 = r) ∧
    (∀ (r : MarkdownRenderer) (t : Str),
      (((r.renderM t).2).renderM t).1 = (r.renderM t).1 ∧
      (((r.renderStreamingM t).2).renderStreamingM t).1
        = (r.renderStreamingM t).1) ∧
    (∀ (styles : Styles) (m₁ m₂ : Model),
      m₁.showWelcome = m₂.showWelcome → m₁.chatHistory = m₂.chatHistory →
      m₁.isStreaming = m₂.isStreaming → m₁.chatResponse = m₂.chatResponse →
      m₁.width = m₂.width →
      buildChatView styles m₁ = buildChatView styles m₂) := by
  refine ⟨fun r t => ⟨rfl, rfl⟩, fun r t => ⟨rfl, rfl⟩, ?_⟩
  intro styles m₁ m₂ h1 h2 h3 h4 h5
  simp only [buildChatView, h1, h2, h3, h4, h5]

/-- Concrete instantiation of `markdownRender_deterministic`: two sessions
differing only in fields the chat view does not read render identically. -/
theorem markdownRender_deterministic_witness :
    buildChatView demoStyles demoViewModelA = buildChatView demoStyles demoViewModelB :=
  markdownRender_deterministic.2.2 demoStyles demoViewModelA demoViewModelB
    rfl rfl rfl rfl rfl

/-- C9: `RenderStreaming` is total (the loop is structurally recursive over
the lines), and on a text whose prefix leaves a code fence open (fence-toggle
state `true`) every subsequent line — none of which is itself a fence line —
is rendered as code-styled text: dim gutter `│ ` plus the line in the green
code style, exactly as inside a closed code block. -/
theorem renderStreaming_openFence (styles : Styles) (ls₁ ls₂ : List Str)
    (hnl : ∀ l ∈ ls₁ ++ ls₂, '\n' ∉ l)
    (hopen : streamFenceState ls₁ false = true)
    (hnofence : ∀ l ∈ ls₂, goStartsWith ("```").data l = false) :
    mdRenderStreaming styles (joinNl (ls₁ ++ ls₂)) =
      goTrimSfx ['\n'] (renderStreamLoop styles ls₁ false ++
        (ls₂.map (fun l => styles.dim.render ("│ ").data ++
          styles.green.render l ++ ['\n'])).flatten) := by
  have hne : ls₁ ++ ls₂ ≠ [] := by
    intro hcon
    have h1 : ls₁ = [] := (List.append_eq_nil.mp hcon).1
    rw [h1] at hopen
    simp [streamFenceState] at hopen
  unfold mdRenderStreaming
  rw [goSplitNl_joinNl_inv _ hne hnl, renderStreamLoop_append, hopen,
    renderStreamLoop_code styles ls₂ hnofence]

/-- Concrete instantiation of `renderStreaming_openFence`: an opened, never
closed fence, followed by two plain lines. -/
theorem renderStreaming_openFence_witness :
    mdRenderStreaming demoStyles
        (joinNl ([("```go").data] ++ [("x := 1").data, ("fmt").data])) =
      goTrimSfx ['\n'] (renderStreamLoop demoStyles [("```go").data] false ++
        (([("x := 1").data, ("fmt").data]).map
          (fun l => demoStyles.dim.render ("│ ").data ++
            demoStyles.green.render l ++ ['\n'])).flatten) :=
  renderStreaming_openFence demoStyles [("```go").data]
    [("x := 1").data, ("fmt").data] (by decide) (by decide) (by decide)

set_option maxRecDepth 40000 in
/-- C4, counterexample: this revision's `renderTable` caps nothing and
truncates no cell — a table whose header holds a 100-rune cell renders lines
of visible width 110, far beyond the 80-column width the spec declares as
`maxWidth`. -/
theorem renderTable_claim_counterexample :
    (goSplitChar '\n' (renderTable demoStyles wideTableLines)).any
      (fun l => decide (80 < visWidth l)) = true := by
  decide

set_option maxRecDepth 40000 in
/-- C4, amended: the renderer computes each column's width from the cell
contents alone — pointwise the width is the maximum cell length over header
and data rows plus 2, with a floor of 5 (`specColWidth`), and no cap or cell
truncation is applied; the concrete 2-column scenario `| A | B |` /
`|---|---|` / `| 1 | 2 |` gets column widths `[5, 5]` and renders five lines
of visible width 13 each (within 80 only because the content is small). -/
theorem renderTable_amended :
    (∀ (header : List Str) (dataRows : List (List Str)),
      (∀ r ∈ dataRows, r.length = header.length) →
      (tableColWidths header dataRows).length = header.length ∧
      ∀ i : Nat, i < header.length →
        (tableColWidths header dataRows).getD i 0 = specColWidth header dataRows i) ∧
    (tableColWidths (parseTableRow (("| A | B |").data))
        [padRow 2 (parseTableRow (("| 1 | 2 |").data))] = [5, 5]) ∧
    ((goSplitChar '\n' (renderTable demoStyles
        [("| A | B |").data, ("|---|---|").data, ("| 1 | 2 |").data])).map
      (fun l => visWidth l) = [13, 13, 13, 13, 13]) := by
  refine ⟨?_, by decide, by decide⟩
  intro header dataRows h
  have h' : ∀ r ∈ dataRows,
      r.length = (header.map (fun c => (c.length : Int))).length := by
    intro r hr
    rw [List.length_map]
    exact h r hr
  have hclen : (dataRows.foldl
      (fun acc row => acc.zipWith max (row.map (fun c => (c.length : Int))))
      (header.map (fun c => (c.length : Int)))).length = header.length := by
    rw [foldl_zipWith_length dataRows _ h', List.length_map]
  constructor
  · simp only [tableColWidths, List.length_map]
    exact hclen
  · intro i hi
    have hi' : i < (dataRows.foldl
        (fun acc row => acc.zipWith max (row.map (fun c => (c.length : Int))))
        (header.map (fun c => (c.length : Int)))).length := by
      rw [hclen]
      exact hi
    have hbase : (header.map (fun c => (c.length : Int))).getD i 0
        = ((header.getD i []).length : Int) := by
      rw [List.getD_eq_getElem _ (0 : Int) (by rw [List.length_map]; exact hi),
        List.getElem_map, List.getD_eq_getElem _ ([] : Str) hi]
    have hfold := foldl_zipWith_getD dataRows
      (header.map (fun c => (c.length : Int))) i
      (by rw [List.length_map]; exact hi) h'
    simp only [tableColWidths]
    rw [List.getD_eq_getElem _ (0 : Int) (by rw [List.length_map]; exact hi'),
      List.getElem_map, ← List.getD_eq_getElem _ (0 : Int) hi', hfold, hbase]
    rfl

/-- Concrete instantiation of `renderTable_amended`: the first column of the
scenario table matches the content-only width formula. -/
theorem renderTable_amended_witness :
    (tableColWidths [("A").data, ("B").data] [[("1").data, ("2").data]]).getD 0 0
      = specColWidth [("A").data, ("B").data] [[("1").data, ("2").data]] 0 :=
  (renderTable_amended.1 [("A").data, ("B").data] [[("1").data, ("2").data]]
    (by decide)).2 0 (by decide)

end MohakTui
